import Mathlib

/-!
Verification of the topology-streams CUDA kernel core
(`packages/cuda-kernels/src/{density,utils,persistence_h0,persistence_h1}.cu`)
against its natural-language specification.

Embedding conventions:
* C `double` values are modelled as exact rationals (`ℚ`); the spec's claims
  are stated at the level of real/rational arithmetic, not IEEE rounding.
* C `int` scalars appearing as sizes/arguments are modelled as `ℤ` where the
  sign checks of the source matter, and as `ℕ` once past the guards.
* Arrays are modelled as `List`s; out-of-range reads use `getD` defaults,
  mirroring the fact that the source never actually reads out of range on
  the paths we verify.
* Functions returning a `TopoError` and writing results through out-pointers
  are modelled as `Except TopoError result`; an error return writes nothing,
  which the `Except` model captures by carrying no result in `.error`.
* The CUDA-device-present, allocation-success path is the one embedded;
  guards that precede the device check are embedded faithfully so that the
  error-handling claims are decided by the same tests as in the source.
-/

namespace TopoStreams

/-- Error codes of `topostreams/types.h` (`TopoError`). -/
inductive TopoError where
  | success
  | invalidArgument
  | cudaMalloc
  | cudaMemcpy
  | cudaKernel
  | cudaNotAvailable
  | internal
deriving DecidableEq, Repr

/-! ## DensityFiltration (`density.cu`) -/

/-- Clamp constant `1e-10` of `density_filtration_kernel`, as an exact rational. -/
def epsDensity : ℚ := 1 / 10 ^ 10

/-- Body of `density_filtration_kernel`: for each point,
`d = kth_distances[i]; if (d < 1e-10) d = 1e-10; out[i] = -1.0 / d`. -/
def density_filtration_kernel (kth : List ℚ) : List ℚ :=
  kth.map (fun dv => -1 / (if dv < epsDensity then epsDensity else dv))

/-- Host wrapper `topo_gpu_density_filtration`: null checks are implicit in the
embedding (lists are always present); `n <= 0` is rejected; otherwise the
kernel runs over the first `n` entries (the source reads exactly `n`). -/
def topo_gpu_density_filtration (kth : List ℚ) (n : ℤ) :
    Except TopoError (List ℚ) :=
  if n ≤ 0 then .error .invalidArgument
  else .ok (density_filtration_kernel (kth.take n.toNat))

/-! ## Shared distance computation (`utils.cu`) -/

/-- Row `i` of the flat row-major `(n, d)` point matrix. -/
def pointRow (points : List ℚ) (d i : ℕ) : List ℚ :=
  (List.range d).map (fun dim => points.getD (i * d + dim) 0)

/-- Squared Euclidean distance loop shared by `radius_query_kernel` and
`knn_kernel`: `for dim in [0,d): dist_sq += (p[dim] - query[dim])^2`. -/
def distSqFlat (points : List ℚ) (d i : ℕ) (query : List ℚ) : ℚ :=
  (List.range d).foldl
    (fun acc dim => acc + (points.getD (i * d + dim) 0 - query.getD dim 0) ^ 2) 0

/-! ## Radius query (`utils.cu`, `radius_query_kernel` / `topo_gpu_radius_query`) -/

/-- Body of `radius_query_kernel`: every thread `i < n` appends `i` when
`dist_sq <= radius_sq`. The atomic compaction order is unspecified in CUDA;
the embedding lists the accepted indices in ascending order, which is one
admissible interleaving — the claims about the kernel are set-level. -/
def radius_query_kernel (points query : List ℚ) (n d : ℕ) (radiusSq : ℚ) :
    List ℕ :=
  (List.range n).filter (fun i => distSqFlat points d i query ≤ radiusSq)

/-- Host wrapper `topo_gpu_radius_query` on the device-present path:
argument guards, then the kernel with `radius_sq = radius * radius`. -/
def topo_gpu_radius_query (points query : List ℚ) (n d : ℤ) (radius : ℚ) :
    Except TopoError (List ℕ) :=
  if n ≤ 0 ∨ d ≤ 0 ∨ radius < 0 then .error .invalidArgument
  else .ok (radius_query_kernel points query n.toNat d.toNat (radius * radius))

/-! ## kNN (`utils.cu`, `insert_if_closer` / `knn_kernel` / `topo_gpu_knn`)

The kernel compares and stores `sqrt` of squared distances. Since
`Real.sqrt` is strictly monotone on nonnegative inputs and the kernel only
ever compares stored distances with candidate distances, the embedding
stores the squared distances instead, which keeps every comparison
equivalent and every definition executable. `DBL_MAX` sentinels are
modelled by `⊤ : WithTop ℚ` (no computed distance ever reaches them). -/

/-- The shifting loop of `insert_if_closer`: place the new entry after every
entry whose key is `≤` the new key (the C loop shifts while
`dists[pos-1] > d`), keeping the list sorted ascending. -/
def insertShift : List (WithTop ℚ × ℤ) → (WithTop ℚ × ℤ) →
    List (WithTop ℚ × ℤ)
  | [], e => [e]
  | x :: xs, e => if x.1 ≤ e.1 then x :: insertShift xs e else e :: x :: xs

/-- Device helper `insert_if_closer`: reject when `d >= dists[k-1]`, otherwise
insert in sorted position; the former last element falls off the end. -/
def insert_if_closer (k : ℕ) (arr : List (WithTop ℚ × ℤ)) (dv : WithTop ℚ)
    (idx : ℤ) : List (WithTop ℚ × ℤ) :=
  if (arr.getD (k - 1) (⊤, -1)).1 ≤ dv then arr
  else (insertShift arr (dv, idx)).take k

/-- Initial thread-local top-k storage: `local_k = min(k, 256)` slots of
`(DBL_MAX, -1)`. -/
def localInit (k : ℕ) : List (WithTop ℚ × ℤ) :=
  List.replicate (min k 256) ((⊤ : WithTop ℚ), (-1 : ℤ))

/-- Thread-local phase of `knn_kernel` for thread `tid`: strided loop over
`i = tid, tid + nthreads, …< n`, skipping `i == query_id`, inserting the
(squared) distance and index. -/
def localTopK (points : List ℚ) (n d k qid tid nthreads : ℕ) :
    List (WithTop ℚ × ℤ) :=
  ((List.range n).filter (fun i => i % nthreads = tid)).foldl
    (fun arr i =>
      if i = qid then arr
      else insert_if_closer (min k 256) arr
        ((distSqFlat points d i (pointRow points d qid) : ℚ) : WithTop ℚ)
        (i : ℤ))
    (localInit k)

/-- Merge phase of `knn_kernel` (thread 0): fold every thread's local list
into a fresh sentinel array, inserting only entries with `i_val >= 0`. -/
def knnMergeRow (points : List ℚ) (n d k qid nthreads : ℕ) :
    List (WithTop ℚ × ℤ) :=
  (List.range nthreads).foldl
    (fun acc t =>
      (localTopK points n d k qid t nthreads).foldl
        (fun acc2 e => if 0 ≤ e.2 then insert_if_closer (min k 256) acc2 e.1 e.2
          else acc2)
        acc)
    (localInit k)

/-- Output row of `knn_kernel` for one query: the first `k` merged entries. -/
def knnKernelRow (points : List ℚ) (n d k qid nthreads : ℕ) :
    List (WithTop ℚ × ℤ) :=
  (List.range k).map
    (fun i => (knnMergeRow points n d k qid nthreads).getD i (⊤, -1))

/-- Host wrapper `topo_gpu_knn` on the device-present path: the two guard
lines of the source, then one kernel row per query with 256 threads per
block. Rows pair the distance matrix `D` and index matrix `I` entrywise. -/
def topo_gpu_knn (points : List ℚ) (n d k : ℤ) :
    Except TopoError (List (List (WithTop ℚ × ℤ))) :=
  if n ≤ 0 ∨ d ≤ 0 ∨ k ≤ 0 ∨ n ≤ k then .error .invalidArgument
  else if 256 < k then .error .invalidArgument
  else .ok ((List.range n.toNat).map
    (fun qid => knnKernelRow points n.toNat d.toNat k.toNat qid 256))

/-! ## PersistenceH0 (`persistence_h0.cu`)

The union-find of the source mutates `parent`, `rank` and `birth` arrays.
`find` uses path halving in an unbounded `while` loop; the embedding gives
it `n` steps of fuel, and the development proves that under the forest
invariant maintained by the code `n` steps always reach the root. -/

/-- Sort key `EdgeSortKey { double filt; int src; int dst; }`. -/
structure EdgeSortKey where
  filt : ℚ
  src : ℕ
  dst : ℕ
deriving DecidableEq, Repr

/-- Comparator `edge_compare`: filtration only, `-1 / 0 / 1`; vertex ids are
never consulted. -/
def edge_compare (a b : EdgeSortKey) : ℤ :=
  if a.filt < b.filt then -1 else if b.filt < a.filt then 1 else 0

/-- Union-find state `UnionFind { int* parent; int* rank; double* birth; }`. -/
structure UnionFind where
  parent : List ℕ
  rank : List ℕ
  birth : List ℚ
deriving DecidableEq, Repr

/-- Constructor `UnionFind::init`: `parent[i] = i`, `rank[i] = 0`,
`birth[i] = vertex_filt[i]`. -/
def UnionFind.init (n : ℕ) (vertexFilt : List ℚ) : UnionFind :=
  { parent := List.range n
    rank := List.replicate n 0
    birth := (List.range n).map (fun i => vertexFilt.getD i 0) }

/-- Loop body of `UnionFind::find` with path halving:
`parent[x] = parent[parent[x]]; x = parent[x];` iterated until
`parent[x] == x`, with explicit fuel. -/
def UnionFind.findAux : ℕ → UnionFind → ℕ → UnionFind × ℕ
  | 0, uf, x => (uf, x)
  | fuel + 1, uf, x =>
    let p := uf.parent.getD x x
    if p = x then (uf, x)
    else
      let g := uf.parent.getD p p
      UnionFind.findAux fuel { uf with parent := uf.parent.set x g } g

/-- Member `UnionFind::find`, fueled with the number of vertices. -/
def UnionFind.find (uf : UnionFind) (x : ℕ) : UnionFind × ℕ :=
  UnionFind.findAux uf.parent.length uf x

/-- Member `UnionFind::unite`, translated clause by clause: the two `find`s,
the early equal-roots return, the birth comparison choosing the dying
component (with its swap), then the union-by-rank swap, the link
`parent[rb] = ra`, and the conditional rank bump. On a merge it returns
`some (dying_birth, death_filt)`. Note that `birth` is never written. -/
def UnionFind.unite (uf0 : UnionFind) (a b : ℕ) (edgeFilt : ℚ) :
    UnionFind × Option (ℚ × ℚ) :=
  let fa := uf0.find a
  let fb := fa.1.find b
  let uf2 := fb.1
  let ra0 := fa.2
  let rb0 := fb.2
  if ra0 = rb0 then (uf2, none)
  else
    let dying := if uf2.birth.getD ra0 0 < uf2.birth.getD rb0 0 then
      uf2.birth.getD rb0 0 else uf2.birth.getD ra0 0
    let s1 : ℕ × ℕ := if uf2.birth.getD ra0 0 < uf2.birth.getD rb0 0 then
      (ra0, rb0) else (rb0, ra0)
    let s2 : ℕ × ℕ := if uf2.rank.getD s1.1 0 < uf2.rank.getD s1.2 0 then
      (s1.2, s1.1) else s1
    let uf3 := { uf2 with parent := uf2.parent.set s2.2 s2.1 }
    let uf4 := if uf3.rank.getD s2.1 0 = uf3.rank.getD s2.2 0 then
      { uf3 with rank := uf3.rank.set s2.1 (uf3.rank.getD s2.1 0 + 1) }
    else uf3
    (uf4, some (dying, edgeFilt))

/-- Main loop of `topo_gpu_persistence_h0` over the (already sorted) edges:
each merge yields a pair which is recorded only when
`dying_birth != death`. The third component instruments the run with the
number of successful merges (the source exposes only the recorded pairs via
`out_births/out_deaths/out_count`; the merge count is needed to state the
component-counting claims and is not part of the C output). -/
def h0Loop : UnionFind → List EdgeSortKey → UnionFind × List (ℚ × ℚ) × ℕ
  | uf, [] => (uf, [], 0)
  | uf, e :: rest =>
    let step := uf.unite e.src e.dst e.filt
    let next := h0Loop step.1 rest
    match step.2 with
    | none => next
    | some p =>
      if p.1 ≠ p.2 then (next.1, p :: next.2.1, next.2.2 + 1)
      else (next.1, next.2.1, next.2.2 + 1)

/-- Insertion step of the embedded comparison sort: the new element goes
after every element that the comparator does not place strictly after it.
This is a stable sort, one admissible refinement of `qsort` (whose order on
comparator-equal elements is unspecified); theorems that depend on tie
order quantify over all comparator-sorted permutations instead. -/
def insertLeB {α : Type} (leB : α → α → Bool) (a : α) : List α → List α
  | [] => [a]
  | x :: xs => if leB x a then x :: insertLeB leB a xs else a :: x :: xs

/-- Stable insertion sort by a boolean total preorder. -/
def sortLeB {α : Type} (leB : α → α → Bool) : List α → List α
  | [] => []
  | x :: xs => insertLeB leB x (sortLeB leB xs)

/-- Sorting of the edge array by `edge_compare` (the CPU `qsort` fallback;
the CUB radix path sorts by the same `filt` key). -/
def sortEdges (edges : List EdgeSortKey) : List EdgeSortKey :=
  sortLeB (fun a b => edge_compare a b ≤ 0) edges

/-- Host function `topo_gpu_persistence_h0` on the device-present path:
guards, sort by filtration, union-find loop. The result carries the
recorded `(birth, death)` pairs in output order (`out_count` is their
number) together with the final union-find state and the merge count,
which the theorems below inspect. -/
def topo_gpu_persistence_h0 (vertexFilt : List ℚ) (edges : List EdgeSortKey)
    (n : ℤ) : Except TopoError (UnionFind × List (ℚ × ℚ) × ℕ) :=
  if n ≤ 0 then .error .invalidArgument
  else .ok (h0Loop (UnionFind.init n.toNat vertexFilt) (sortEdges edges))

/-! ## PersistenceH1 (`persistence_h1.cu`)

Column reduction over Z/2. The `while (boundary_len[col] > 0)` loop of the
source has no a-priori bound, so the embedding gives every column an
explicit fuel budget and returns `none` when the budget is exhausted;
`none` models a reduction that has not finished (the source would still be
looping). The development proves that on inputs whose triangles have
pairwise distinct vertices the budget `m + 2` always suffices, and that
there are degenerate inputs on which no finite budget does. -/

/-- Sort key `TriSortKey { double filt; int v0, v1, v2; ... }`. -/
structure TriSortKey where
  filt : ℚ
  v0 : ℕ
  v1 : ℕ
  v2 : ℕ
deriving DecidableEq, Repr, Inhabited

/-- Record `EdgeInfo { int src, dst; double filt; ... }` (the `sorted_idx`
field is the position in the sorted list and needs no separate field). -/
structure EdgeInfo where
  src : ℕ
  dst : ℕ
  filt : ℚ
deriving DecidableEq, Repr, Inhabited

/-- Comparator `tri_compare`: filtration only; vertex ids never consulted. -/
def tri_compare (a b : TriSortKey) : ℤ :=
  if a.filt < b.filt then -1 else if b.filt < a.filt then 1 else 0

/-- Comparator `edge_info_compare`: filtration only. -/
def edge_info_compare (a b : EdgeInfo) : ℤ :=
  if a.filt < b.filt then -1 else if b.filt < a.filt then 1 else 0

/-- Normalization `if (u > v) swap(u, v)` used by `find_edge` on both the
query pair and each stored edge. -/
def normPair (u v : ℕ) : ℕ × ℕ := if v < u then (v, u) else (u, v)

/-- Scan loop of `find_edge`, carrying the index counter `i`. -/
def findEdgeAux (u v : ℕ) : List EdgeInfo → ℕ → Option ℕ
  | [], _ => none
  | e :: rest, i =>
    if normPair e.src e.dst = normPair u v then some i
    else findEdgeAux u v rest (i + 1)

/-- Helper `find_edge`: linear scan for the first index whose normalized
endpoints equal the normalized query pair; `none` for the C `-1`. -/
def find_edge (edges : List EdgeInfo) (u v : ℕ) : Option ℕ :=
  findEdgeAux u v edges 0

/-- Descending insertion used to embed the in-place descending sort of the
three boundary rows (lines 117–126 of `persistence_h1.cu`). -/
def insertDesc (a : ℕ) : List ℕ → List ℕ
  | [] => [a]
  | x :: xs => if x < a then a :: x :: xs else x :: insertDesc a xs

/-- Descending sort of a row-index list. -/
def sortDesc : List ℕ → List ℕ
  | [] => []
  | x :: xs => insertDesc x (sortDesc xs)

/-- Boundary column of one (sorted) triangle: resolve the pairs
`(v0,v1), (v0,v2), (v1,v2)` through `find_edge`, keep the hits, sort the
row indices descending so that the head is the pivot. -/
def buildColumn (edges : List EdgeInfo) (tr : TriSortKey) : List ℕ :=
  sortDesc (([find_edge edges tr.v0 tr.v1,
    find_edge edges tr.v0 tr.v2,
    find_edge edges tr.v1 tr.v2]).filterMap id)

/-- Symmetric difference of two descending row lists (the Z/2 XOR merge of
lines 150–164): equal heads cancel, otherwise the larger head is emitted. -/
def xorMerge : List ℕ → List ℕ → List ℕ
  | [], l => l
  | l, [] => l
  | a :: as, b :: bs =>
    if b < a then a :: xorMerge as (b :: bs)
    else if a < b then b :: xorMerge (a :: as) bs
    else xorMerge as bs
termination_by l1 l2 => l1.length + l2.length

/-- State of the reduction sweep: the current columns, the
`pivot_col` ownership table (`none` for `-1`) and the pairs emitted so
far in output order. -/
structure H1State where
  cols : List (List ℕ)
  owner : List (Option ℕ)
  pairs : List (ℚ × ℚ)
deriving DecidableEq, Repr

/-- Inner `while (boundary_len[col] > 0)` loop for column `colIdx`, with
fuel: an empty column stops; an unowned pivot registers the column, emits
`(edges[pivot].filt, tris[col].filt)` and stops; an owned pivot XORs the
owner column in and continues. -/
def reduceColumn (sortedEdges : List EdgeInfo) (sortedTris : List TriSortKey) :
    ℕ → H1State → ℕ → Option H1State
  | 0, _, _ => none
  | fuel + 1, st, colIdx =>
    match st.cols.getD colIdx [] with
    | [] => some st
    | pivot :: _ =>
      match st.owner.getD pivot none with
      | none =>
        some { st with
          owner := st.owner.set pivot (some colIdx)
          pairs := st.pairs ++
            [((sortedEdges.getD pivot default).filt,
              (sortedTris.getD colIdx default).filt)] }
      | some other =>
        reduceColumn sortedEdges sortedTris fuel
          { st with cols := (st.cols.set colIdx
              (xorMerge (st.cols.getD colIdx []) (st.cols.getD other []))) }
          colIdx

/-- Outer left-to-right sweep over the column indices. -/
def reduceSweep (sortedEdges : List EdgeInfo) (sortedTris : List TriSortKey)
    (fuel : ℕ) : List ℕ → H1State → Option H1State
  | [], st => some st
  | c :: rest, st =>
    match reduceColumn sortedEdges sortedTris fuel st c with
    | none => none
    | some st' => reduceSweep sortedEdges sortedTris fuel rest st'

/-- Sorting of the edge array by `edge_info_compare` (`qsort`, embedded as
the stable insertion sort, as for H0). -/
def sortEdgeInfos (edges : List EdgeInfo) : List EdgeInfo :=
  sortLeB (fun a b => edge_info_compare a b ≤ 0) edges

/-- Sorting of the triangle array by `tri_compare`. -/
def sortTris (tris : List TriSortKey) : List TriSortKey :=
  sortLeB (fun a b => tri_compare a b ≤ 0) tris

/-- Reduction phase of `topo_gpu_persistence_h1` on already-sorted input,
with a per-column fuel budget. `none` models a non-terminating run. -/
def h1Reduce (sortedEdges : List EdgeInfo) (sortedTris : List TriSortKey)
    (fuel : ℕ) : Option (List (ℚ × ℚ)) :=
  (reduceSweep sortedEdges sortedTris fuel
    (List.range sortedTris.length)
    { cols := sortedTris.map (buildColumn sortedEdges)
      owner := List.replicate sortedEdges.length none
      pairs := [] }).map H1State.pairs

/-- Whole `topo_gpu_persistence_h1` pipeline after the argument guards:
sort edges, sort triangles, build the boundary columns, reduce. -/
def h1WithFuel (edges : List EdgeInfo) (tris : List TriSortKey) (fuel : ℕ) :
    Option (List (ℚ × ℚ)) :=
  h1Reduce (sortEdgeInfos edges) (sortTris tris) fuel

/-- Host function `topo_gpu_persistence_h1` on the device-present path.
`none` models a call that never returns; `some (.ok pairs)` is a
successful return with `out_count = pairs.length`. The fuel `m + 2`
suffices whenever the reduction of the source terminates on well-formed
triangles, as proved below. -/
def topo_gpu_persistence_h1 (edges : List EdgeInfo) (tris : List TriSortKey)
    (m t : ℤ) : Option (Except TopoError (List (ℚ × ℚ))) :=
  if t = 0 ∨ m = 0 then some (.ok [])
  else (h1WithFuel (edges.take m.toNat) (tris.take t.toNat)
    (m.toNat + 2)).map .ok

/-! ## Specification-side definitions used by the theorems -/

/-- Modelled from the spec: the fully specified H0 processing order —
`filt` ascending, ties broken by `(src, dst)` lexicographic. -/
def edgeLexLe (a b : EdgeSortKey) : Prop :=
  a.filt < b.filt ∨ (a.filt = b.filt ∧
    (a.src < b.src ∨ (a.src = b.src ∧ a.dst ≤ b.dst)))

instance (a b : EdgeSortKey) : Decidable (edgeLexLe a b) := by
  unfold edgeLexLe; infer_instance

/-- Modelled from the spec: sorting the edges in the fully specified
`(filt, src, dst)` order. -/
def sortLexEdges (edges : List EdgeSortKey) : List EdgeSortKey :=
  sortLeB (fun a b => decide (edgeLexLe a b)) edges

/-- Modelled from the spec: the fully specified H1 triangle order —
`filt` ascending, ties broken by `(v0, v1, v2)` lexicographic. -/
def triLexLe (a b : TriSortKey) : Prop :=
  a.filt < b.filt ∨ (a.filt = b.filt ∧
    (a.v0 < b.v0 ∨ (a.v0 = b.v0 ∧
      (a.v1 < b.v1 ∨ (a.v1 = b.v1 ∧ a.v2 ≤ b.v2)))))

instance (a b : TriSortKey) : Decidable (triLexLe a b) := by
  unfold triLexLe; infer_instance

/-- Modelled from the spec: sorting the triangles in the fully specified
`(filt, v0, v1, v2)` order. -/
def sortLexTris (tris : List TriSortKey) : List TriSortKey :=
  sortLeB (fun a b => decide (triLexLe a b)) tris

/-- Connectivity in the undirected graph whose edges are the given list:
the equivalence closure of the edge relation. This is the
specification-side notion of two vertices lying in the same connected
component. -/
inductive Conn (edges : List EdgeSortKey) : ℕ → ℕ → Prop
  | refl (x : ℕ) : Conn edges x x
  | symm {x y : ℕ} : Conn edges x y → Conn edges y x
  | trans {x y z : ℕ} : Conn edges x y → Conn edges y z → Conn edges x z
  | edge {e : EdgeSortKey} : e ∈ edges → Conn edges e.src e.dst

/-- Predicate for a union-find root: `parent[x] == x`. -/
def isRoot (p : List ℕ) (x : ℕ) : Prop := p.getD x x = x

instance (p : List ℕ) (x : ℕ) : Decidable (isRoot p x) := by
  unfold isRoot; infer_instance

/-- Number of union-find roots among the first `n` vertices. -/
def rootsCount (p : List ℕ) (n : ℕ) : ℕ :=
  ((List.range n).filter (fun x => decide (isRoot p x))).length

/-- Iterated parent pointer. -/
def iterP (p : List ℕ) : ℕ → ℕ → ℕ
  | 0, x => x
  | k + 1, x => iterP p k (p.getD x x)

/-- The parent chain from `x` first reaches the root `r` after exactly `ℓ`
steps. -/
def ReachesIn (p : List ℕ) (x r : ℕ) (ℓ : ℕ) : Prop :=
  iterP p ℓ x = r ∧ isRoot p r ∧ ∀ i < ℓ, ¬ isRoot p (iterP p i x)

/-- Every parent chain reaches a root: the forest invariant of the
union-find state. -/
def Rooted (p : List ℕ) (x : ℕ) : Prop := ∃ r ℓ, ReachesIn p x r ℓ

/-- Structural invariant of the union-find state on `n` vertices: the
parent array has length `n`, points into range, and every chain reaches a
root. -/
def UFInv (n : ℕ) (uf : UnionFind) : Prop :=
  uf.parent.length = n ∧ (∀ z < n, uf.parent.getD z z < n) ∧
    (∀ z, Rooted uf.parent z)

/-- Soundness invariant: every parent pointer stays inside the vertex's
connected component of the processed edges. -/
def UFConn (E : List EdgeSortKey) (uf : UnionFind) : Prop :=
  ∀ z, Conn E z (uf.parent.getD z z)

/-- Completeness invariant: the two endpoints of every processed edge have
the same root. -/
def UFCompat (E : List EdgeSortKey) (uf : UnionFind) : Prop :=
  ∀ e ∈ E, ∀ r1 ℓ1 r2 ℓ2, ReachesIn uf.parent e.src r1 ℓ1 →
    ReachesIn uf.parent e.dst r2 ℓ2 → r1 = r2

/-- One parent array is a pointwise path-halving of another. -/
def Halved (p p' : List ℕ) : Prop :=
  p'.length = p.length ∧ ∀ z, p'.getD z z = p.getD z z ∨
    p'.getD z z = p.getD (p.getD z z) (p.getD z z)

/-- Observable preservation between two union-find states: `find` steps
keep ranks, births, the array length, the root set, every chain's root
(not lengthening it), connectivity of pointers, and pointer ranges. -/
def UFPres (uf uf' : UnionFind) : Prop :=
  uf'.rank = uf.rank ∧ uf'.birth = uf.birth ∧
  uf'.parent.length = uf.parent.length ∧
  (∀ z, isRoot uf'.parent z ↔ isRoot uf.parent z) ∧
  (∀ y r ℓ, ReachesIn uf.parent y r ℓ →
    ∃ ℓ' ≤ ℓ, ReachesIn uf'.parent y r ℓ') ∧
  (∀ Es, UFConn Es uf → UFConn Es uf') ∧
  (∀ m, (∀ z < m, uf.parent.getD z z < m) → ∀ z < m, uf'.parent.getD z z < m)

/-- Filtration bound invariant of the H1 reduction: every row index held in
column `c` names an edge whose filtration is at most the filtration of
triangle `c`. -/
def ColsBound (SE : List EdgeInfo) (ST : List TriSortKey)
    (cols : List (List ℕ)) : Prop :=
  ∀ c r, r ∈ cols.getD c [] → (SE.getD r default).filt ≤ (ST.getD c default).filt

/-- Ownership invariant: every registered pivot owner is an
already-processed column. -/
def OwnerBound (owner : List (Option ℕ)) (k : ℕ) : Prop :=
  ∀ r q, owner.getD r none = some q → q < k

/-- Every emitted pair has `death ≥ birth`. -/
def PairsGood (pairs : List (ℚ × ℚ)) : Prop := ∀ p ∈ pairs, p.1 ≤ p.2

/-- Every column is a strictly descending row list. -/
def StrictCols (cols : List (List ℕ)) : Prop :=
  ∀ c, (cols.getD c []).Chain' (fun x y => y < x)

/-- Every registered owner column still has the registered pivot at its
head. -/
def OwnerPivot (owner : List (Option ℕ)) (cols : List (List ℕ)) : Prop :=
  ∀ r q, owner.getD r none = some q → (cols.getD q []).head? = some r

/-- Every stored row index is in range of the sorted edge list. -/
def RowsBound (cols : List (List ℕ)) (m : ℕ) : Prop :=
  ∀ c r, r ∈ cols.getD c [] → r < m

/-! ## Helper lemmas -/

/-- Clamping from below is a maximum. -/
theorem clamp_eq_max (dv e : ℚ) : (if dv < e then e else dv) = max dv e := by
  rcases lt_or_le dv e with h | h
  · rw [if_pos h, max_eq_right h.le]
  · rw [if_neg (not_lt.mpr h), max_eq_left h]

/-- Accumulating squares never decreases the accumulator. -/
theorem le_foldl_add_sq (f : ℕ → ℚ) (l : List ℕ) (acc : ℚ) :
    acc ≤ l.foldl (fun a i => a + f i ^ 2) acc := by
  induction l generalizing acc with
  | nil => exact le_rfl
  | cons x xs ih => exact le_trans (by nlinarith [sq_nonneg (f x)]) (ih (acc + f x ^ 2))

/-- A squared distance is nonnegative. -/
theorem distSqFlat_nonneg (points : List ℚ) (d i : ℕ) (query : List ℚ) :
    0 ≤ distSqFlat points d i query :=
  le_foldl_add_sq (fun dim => points.getD (i * d + dim) 0 - query.getD dim 0)
    (List.range d) 0

/-! ## C5: density filtration formula -/

/-- C5: a successful `topo_gpu_density_filtration` call on an array of
length `n ≥ 1` returns `out` with `out[i] = -1 / max(kth[i], 1e-10)` for
every `i < n`. -/
theorem C5_density_formula (kth : List ℚ) (n : ℤ) (out : List ℚ)
    (hn : 1 ≤ n) (hlen : (kth.length : ℤ) = n)
    (hok : topo_gpu_density_filtration kth n = .ok out)
    (i : ℕ) (hi : (i : ℤ) < n) :
    out.getD i 0 = -1 / max (kth.getD i 0) epsDensity := by
  unfold topo_gpu_density_filtration at hok
  rw [if_neg (by omega)] at hok
  have htake : kth.take n.toNat = kth := List.take_of_length_le (by omega)
  rw [htake] at hok
  have hout : out = density_filtration_kernel kth := by
    cases hok; rfl
  subst hout
  have hil : i < kth.length := by omega
  unfold density_filtration_kernel
  rw [List.getD_eq_getElem?_getD, List.getElem?_map,
    List.getElem?_eq_getElem hil]
  simp only [Option.map_some', Option.getD_some]
  rw [List.getD_eq_getElem?_getD, List.getElem?_eq_getElem hil,
    Option.getD_some, clamp_eq_max]

/-- Witness for C5 at `kth = [0, 5]`, `n = 2`, `i = 0`. -/
theorem C5_density_formula_witness :
    topo_gpu_density_filtration [0, 5] 2 = .ok (density_filtration_kernel [0, 5]) ∧
    (density_filtration_kernel [0, 5]).getD 0 0 =
      -1 / max (([0, 5] : List ℚ).getD 0 0) epsDensity :=
  ⟨rfl, C5_density_formula [0, 5] 2 (density_filtration_kernel [0, 5])
    (by norm_num) (by rfl) rfl 0 (by norm_num)⟩

/-! ## C7: radius query returns exactly the closed ball -/

/-- C7: a successful `topo_gpu_radius_query` call returns exactly the
indices whose Euclidean distance to the query is at most `radius`; in
particular distance exactly `radius` is included. -/
theorem C7_radius_query_exact (points query : List ℚ) (n d : ℤ) (radius : ℚ)
    (out : List ℕ)
    (hok : topo_gpu_radius_query points query n d radius = .ok out) (i : ℕ) :
    i ∈ out ↔ i < n.toNat ∧
      Real.sqrt ((distSqFlat points d.toNat i query : ℚ) : ℝ) ≤ (radius : ℝ) := by
  unfold topo_gpu_radius_query at hok
  rcases em (n ≤ 0 ∨ d ≤ 0 ∨ radius < 0) with hg | hg
  · rw [if_pos hg] at hok; exact absurd hok (by simp)
  · rw [if_neg hg] at hok
    have hout : out = radius_query_kernel points query n.toNat d.toNat
        (radius * radius) := by cases hok; rfl
    subst hout
    push_neg at hg
    have hr : (0 : ℚ) ≤ radius := hg.2.2
    unfold radius_query_kernel
    rw [List.mem_filter, List.mem_range]
    apply and_congr_right
    intro _
    rw [decide_eq_true_eq,
      Real.sqrt_le_left (by exact_mod_cast hr), sq, ← Rat.cast_mul, Rat.cast_le]

/-- Witness for C7 at three collinear points with the middle one exactly on
the radius. -/
theorem C7_radius_query_exact_witness :
    topo_gpu_radius_query [0, 3, 5] [0] 3 1 3 =
      .ok (radius_query_kernel [0, 3, 5] [0] (3 : ℤ).toNat (1 : ℤ).toNat ((3 : ℚ) * 3)) ∧
    (1 ∈ radius_query_kernel [0, 3, 5] [0] (3 : ℤ).toNat (1 : ℤ).toNat ((3 : ℚ) * 3) ↔
      1 < (3 : ℤ).toNat ∧
      Real.sqrt ((distSqFlat [0, 3, 5] (1 : ℤ).toNat 1 [0] : ℚ) : ℝ) ≤ ((3 : ℚ) : ℝ)) := by
  have h := C7_radius_query_exact [0, 3, 5] [0] 3 1 3
    (radius_query_kernel [0, 3, 5] [0] (3 : ℤ).toNat (1 : ℤ).toNat ((3 : ℚ) * 3)) rfl 1
  exact ⟨rfl, h⟩

/-! ## C8: kNN argument validation -/

/-- C8: `topo_gpu_knn` rejects `n ≤ 0`, `d ≤ 0`, `k ≤ 0` and `k ≥ n` with
`InvalidArgument`; the error return carries no output. -/
theorem C8_knn_invalid_arguments (points : List ℚ) (n d k : ℤ)
    (h : n ≤ 0 ∨ d ≤ 0 ∨ k ≤ 0 ∨ n ≤ k) :
    topo_gpu_knn points n d k = .error .invalidArgument := by
  unfold topo_gpu_knn; rw [if_pos h]

/-- Witness for C8 at `n = 0`. -/
theorem C8_knn_invalid_arguments_witness :
    ((0 : ℤ) ≤ 0 ∨ (1 : ℤ) ≤ 0 ∨ (1 : ℤ) ≤ 0 ∨ (0 : ℤ) ≤ 1) ∧
    topo_gpu_knn [] 0 1 1 = .error .invalidArgument :=
  ⟨Or.inl le_rfl, C8_knn_invalid_arguments [] 0 1 1 (Or.inl le_rfl)⟩

/-! ## C10: kNN rejects k > 256 -/

/-- C10: `topo_gpu_knn` rejects every `k > 256` with `InvalidArgument`,
even when `0 < k < n` holds. -/
theorem C10_knn_rejects_large_k (points : List ℚ) (n d k : ℤ)
    (h : 256 < k) :
    topo_gpu_knn points n d k = .error .invalidArgument := by
  unfold topo_gpu_knn
  rcases em (n ≤ 0 ∨ d ≤ 0 ∨ k ≤ 0 ∨ n ≤ k) with hg | hg
  · rw [if_pos hg]
  · rw [if_neg hg, if_pos h]

/-- Witness for C10 at `k = 257`, `n = 300` (so `0 < k < n` holds). -/
theorem C10_knn_rejects_large_k_witness :
    (256 : ℤ) < 257 ∧ (0 : ℤ) < 257 ∧ (257 : ℤ) < 300 ∧
    topo_gpu_knn [] 300 1 257 = .error .invalidArgument :=
  ⟨by norm_num, by norm_num, by norm_num,
    C10_knn_rejects_large_k [] 300 1 257 (by norm_num)⟩

/-! ## C1 (counterexample): a death == birth pair is emitted by H1 -/

/-- C1 fails on the code: the filled triangle on vertices `0,1,2` with edge
filtrations `1, 2, 3` and triangle filtration `3` makes
`topo_gpu_persistence_h1` output the pair `(3, 3)` with `death == birth`;
the source has no `birth < death` guard before the emission at
`persistence_h1.cu:142-144`. -/
theorem C1_zero_persistence_pair_emitted :
    topo_gpu_persistence_h1 [⟨0, 1, 1⟩, ⟨0, 2, 2⟩, ⟨1, 2, 3⟩] [⟨3, 0, 1, 2⟩] 3 1 =
      some (.ok [(3, 3)]) ∧ ¬ ((3 : ℚ) < 3) :=
  ⟨by rfl, by norm_num⟩

/-! ## C2 (code bug): the surviving root can keep the larger birth -/

/-- C2 is violated by the code: with vertex filtrations `[10, 11, 0]` and
edges `(0,1)@20`, `(1,2)@30`, after both merges the three vertices share
one root, but the birth stored at that root is `10`, not the component
minimum `0`: the union-by-rank swap at `persistence_h0.cu:71` picks the
rank-1 root `0` as survivor after the birth-based swap chose root `2`,
and `birth` is never rewritten, contradicting the comment at lines 74-75. -/
theorem C2_h0_survivor_birth_code_bug :
    ((((h0Loop (UnionFind.init 3 [10, 11, 0]) [⟨20, 0, 1⟩, ⟨30, 1, 2⟩]).1).find 0).2 =
      (((h0Loop (UnionFind.init 3 [10, 11, 0]) [⟨20, 0, 1⟩, ⟨30, 1, 2⟩]).1).find 2).2) ∧
    ((h0Loop (UnionFind.init 3 [10, 11, 0]) [⟨20, 0, 1⟩, ⟨30, 1, 2⟩]).1).birth.getD
      ((((h0Loop (UnionFind.init 3 [10, 11, 0]) [⟨20, 0, 1⟩, ⟨30, 1, 2⟩]).1).find 2).2) 0
      = 10 ∧
    min (10 : ℚ) (min 11 0) = 0 ∧ (10 : ℚ) ≠ 0 := by
  refine ⟨by rfl, by rfl, by norm_num, by norm_num⟩

/-! ## C3 (counterexample): ties are not broken lexicographically -/

/-- C3 fails on the code: both comparators return 0 on equal filtrations
regardless of vertices, and on the two-edge input `(0,1)@10, (0,2)@10`
(already in the spec's lexicographic order) the embedded sort processes
the edges in the order `(0,2), (0,1)`, producing the pair sequence
`[(3,10), (2,10)]`, while the spec's fully specified order produces
`[(2,10), (3,10)]`. -/
theorem C3_tie_break_counterexample :
    edge_compare ⟨10, 0, 1⟩ ⟨10, 0, 2⟩ = 0 ∧
    edge_compare ⟨10, 0, 2⟩ ⟨10, 0, 1⟩ = 0 ∧
    tri_compare ⟨10, 0, 1, 2⟩ ⟨10, 0, 1, 3⟩ = 0 ∧
    sortEdges [⟨10, 0, 1⟩, ⟨10, 0, 2⟩] = [⟨10, 0, 2⟩, ⟨10, 0, 1⟩] ∧
    sortLexEdges [⟨10, 0, 1⟩, ⟨10, 0, 2⟩] = [⟨10, 0, 1⟩, ⟨10, 0, 2⟩] ∧
    (h0Loop (UnionFind.init 3 [1, 2, 3]) (sortEdges [⟨10, 0, 1⟩, ⟨10, 0, 2⟩])).2.1 =
      [(3, 10), (2, 10)] ∧
    (h0Loop (UnionFind.init 3 [1, 2, 3]) (sortLexEdges [⟨10, 0, 1⟩, ⟨10, 0, 2⟩])).2.1 =
      [(2, 10), (3, 10)] ∧
    ([((3 : ℚ), (10 : ℚ)), (2, 10)] ≠ [(2, 10), (3, 10)]) := by
  refine ⟨by rfl, by rfl, by rfl, by rfl, by rfl, by rfl, by rfl, by decide⟩

/-! ## C4 (counterexample): suppressed merges break the count formula -/

/-- C4 fails on the code: two vertices with filtrations `-1, -2` joined by
one edge at filtration `-1` form a single connected component, so the
claimed count is `n - c = 2 - 1 = 1`, but the merge has
`dying_birth == death == -1` and is suppressed, so the code reports zero
finite pairs (while performing one merge). -/
theorem C4_count_counterexample :
    (h0Loop (UnionFind.init 2 [-1, -2]) (sortEdges [⟨-1, 0, 1⟩])).2.1.length = 0 ∧
    (h0Loop (UnionFind.init 2 [-1, -2]) (sortEdges [⟨-1, 0, 1⟩])).2.2 = 1 ∧
    Conn [⟨-1, 0, 1⟩] 0 1 ∧ 2 - 1 = 1 ∧ (0 : ℕ) ≠ 1 := by
  refine ⟨by rfl, by rfl, ?_, by norm_num, by norm_num⟩
  exact Conn.edge (e := ⟨-1, 0, 1⟩) (by simp)

/-! ## C9 (counterexample): the reduction loop can run forever -/

/-- With the single edge `(0,2)@1` and the degenerate triangles
`(0,0,2)@1` (column `[0,0]`, registered as owner of pivot 0) and
`(1,0,2)@2` (column `[0]`), the XOR step maps column 1 to itself, so the
inner loop never makes progress no matter how much fuel it is given. -/
theorem reduceColumn_fixpoint_stuck (fuel : ℕ) :
    reduceColumn [⟨0, 2, 1⟩] [⟨1, 0, 0, 2⟩, ⟨2, 1, 0, 2⟩] fuel
      { cols := [[0, 0], [0]], owner := [some 0], pairs := [(1, 1)] } 1 = none := by
  induction fuel with
  | zero => rfl
  | succ f ih =>
    rw [reduceColumn.eq_def]
    norm_num [xorMerge]
    exact ih

/-- Stepping the sweep past a column whose reduction finished. -/
theorem reduceSweep_cons_some (E : List EdgeInfo) (T : List TriSortKey)
    (fuel c : ℕ) (rest : List ℕ) (st st' : H1State)
    (h : reduceColumn E T fuel st c = some st') :
    reduceSweep E T fuel (c :: rest) st = reduceSweep E T fuel rest st' := by
  rw [reduceSweep, h]

/-- A sweep aborts as soon as one column exhausts its fuel. -/
theorem reduceSweep_cons_none (E : List EdgeInfo) (T : List TriSortKey)
    (fuel c : ℕ) (rest : List ℕ) (st : H1State)
    (h : reduceColumn E T fuel st c = none) :
    reduceSweep E T fuel (c :: rest) st = none := by
  rw [reduceSweep, h]

/-- The whole H1 run on that input exhausts any fuel budget. -/
theorem h1_degenerate_input_diverges (fuel : ℕ) :
    h1WithFuel [⟨0, 2, 1⟩] [⟨1, 0, 0, 2⟩, ⟨2, 1, 0, 2⟩] fuel = none := by
  cases fuel with
  | zero => rfl
  | succ f =>
    have key : reduceSweep [⟨0, 2, 1⟩] [⟨1, 0, 0, 2⟩, ⟨2, 1, 0, 2⟩] (f + 1) [0, 1]
        { cols := [[0, 0], [0]], owner := [none], pairs := [] } = none := by
      rw [reduceSweep_cons_some _ _ _ _ _ _ _
        (show reduceColumn [⟨0, 2, 1⟩] [⟨1, 0, 0, 2⟩, ⟨2, 1, 0, 2⟩] (f + 1)
          { cols := [[0, 0], [0]], owner := [none], pairs := [] } 0 =
          some { cols := [[0, 0], [0]], owner := [some 0], pairs := [(1, 1)] } from rfl)]
      exact reduceSweep_cons_none _ _ _ _ _ _ (reduceColumn_fixpoint_stuck (f + 1))
    show (reduceSweep [⟨0, 2, 1⟩] [⟨1, 0, 0, 2⟩, ⟨2, 1, 0, 2⟩] (f + 1) [0, 1]
      { cols := [[0, 0], [0]], owner := [none], pairs := [] }).map H1State.pairs = none
    rw [key]
    rfl

/-- C9 fails on the code: it is not the case that the column reduction of
`topo_gpu_persistence_h1` finishes on every input; the degenerate input of
`h1_degenerate_input_diverges` (a triangle with a repeated vertex, legal
at the C interface) makes the XOR step reproduce the current column
unchanged, so no fuel budget completes and the C loop runs forever. -/
theorem C9_reduction_nontermination :
    (¬ ∀ (edges : List EdgeInfo) (tris : List TriSortKey),
      ∃ fuel, (h1WithFuel edges tris fuel).isSome) ∧
    topo_gpu_persistence_h1 [⟨0, 2, 1⟩] [⟨1, 0, 0, 2⟩, ⟨2, 1, 0, 2⟩] 1 2 = none := by
  constructor
  · intro h
    obtain ⟨fuel, hf⟩ := h [⟨0, 2, 1⟩] [⟨1, 0, 0, 2⟩, ⟨2, 1, 0, 2⟩]
    rw [h1_degenerate_input_diverges fuel] at hf
    simp at hf
  · have h := h1_degenerate_input_diverges ((1 : ℤ).toNat + 2)
    unfold topo_gpu_persistence_h1
    rw [if_neg (by norm_num)]
    rw [show ([⟨0, 2, 1⟩] : List EdgeInfo).take (1 : ℤ).toNat = [⟨0, 2, 1⟩] from rfl,
      show ([⟨1, 0, 0, 2⟩, ⟨2, 1, 0, 2⟩] : List TriSortKey).take (2 : ℤ).toNat =
        [⟨1, 0, 0, 2⟩, ⟨2, 1, 0, 2⟩] from rfl, h]
    rfl

/-! ## C6: kNN row ordering and self-exclusion -/

/-- Generic fold invariant. -/
theorem foldl_invariant {α β : Type} (P : α → Prop) (f : α → β → α)
    (l : List β) (init : α) (h0 : P init)
    (hstep : ∀ a b, P a → b ∈ l → P (f a b)) : P (l.foldl f init) := by
  induction l generalizing init with
  | nil => exact h0
  | cons x xs ih =>
    exact ih (f init x) (hstep init x h0 (by simp))
      (fun a b ha hb => hstep a b ha (by simp [hb]))

/-- Entries of `insertShift` come from the old list or are the new entry. -/
theorem insertShift_mem (l : List (WithTop ℚ × ℤ)) (e x : WithTop ℚ × ℤ)
    (hx : x ∈ insertShift l e) : x ∈ l ∨ x = e := by
  induction l with
  | nil => simp only [insertShift, List.mem_singleton] at hx; exact Or.inr hx
  | cons a as ih =>
    unfold insertShift at hx
    split at hx
    · rcases List.mem_cons.mp hx with h | h
      · exact Or.inl (List.mem_cons.mpr (Or.inl h))
      · rcases ih h with h' | h'
        · exact Or.inl (List.mem_cons.mpr (Or.inr h'))
        · exact Or.inr h'
    · rcases List.mem_cons.mp hx with h | h
      · exact Or.inr h
      · exact Or.inl h

/-- The head of `insertShift` is the old head or the new entry. -/
theorem insertShift_head (l : List (WithTop ℚ × ℤ)) (e y : WithTop ℚ × ℤ)
    (hy : y ∈ (insertShift l e).head?) : y ∈ l.head? ∨ y = e := by
  cases l with
  | nil => simp only [insertShift, List.head?_cons, Option.mem_def,
      Option.some.injEq] at hy; exact Or.inr hy.symm
  | cons a as =>
    unfold insertShift at hy
    split at hy
    · simp only [List.head?_cons, Option.mem_def, Option.some.injEq] at hy
      exact Or.inl (by simp [hy])
    · simp only [List.head?_cons, Option.mem_def, Option.some.injEq] at hy
      exact Or.inr hy.symm

/-- Shifted insertion keeps the row sorted. -/
theorem insertShift_sorted (l : List (WithTop ℚ × ℤ)) (e : WithTop ℚ × ℤ)
    (h : l.Chain' (fun x y => x.1 ≤ y.1)) :
    (insertShift l e).Chain' (fun x y => x.1 ≤ y.1) := by
  induction l with
  | nil => simp [insertShift]
  | cons a as ih =>
    rw [List.chain'_cons'] at h
    unfold insertShift
    split
    · rw [List.chain'_cons']
      refine ⟨?_, ih h.2⟩
      intro y hy
      rcases insertShift_head as e y hy with h' | h'
      · exact h.1 y h'
      · subst h'; assumption
    · rw [List.chain'_cons']
      exact ⟨fun y hy => by
        simp only [List.head?_cons, Option.mem_def, Option.some.injEq] at hy
        subst hy; exact le_of_not_le (by assumption), List.chain'_cons'.mpr h⟩

/-- Taking a prefix keeps a row sorted. -/
theorem chain_take (l : List (WithTop ℚ × ℤ)) (k : ℕ)
    (h : l.Chain' (fun x y => x.1 ≤ y.1)) :
    (l.take k).Chain' (fun x y => x.1 ≤ y.1) :=
  h.prefix (List.take_prefix k l)

/-- The `insert_if_closer` helper keeps the row sorted. -/
theorem insert_if_closer_sorted (k : ℕ) (arr : List (WithTop ℚ × ℤ))
    (dv : WithTop ℚ) (idx : ℤ) (h : arr.Chain' (fun x y => x.1 ≤ y.1)) :
    (insert_if_closer k arr dv idx).Chain' (fun x y => x.1 ≤ y.1) := by
  unfold insert_if_closer
  split
  · exact h
  · exact chain_take _ k (insertShift_sorted arr (dv, idx) h)

/-- Entries of `insert_if_closer` come from the old row or are the new entry. -/
theorem insert_if_closer_mem (k : ℕ) (arr : List (WithTop ℚ × ℤ))
    (dv : WithTop ℚ) (idx : ℤ) (x : WithTop ℚ × ℤ)
    (hx : x ∈ insert_if_closer k arr dv idx) : x ∈ arr ∨ x = (dv, idx) := by
  unfold insert_if_closer at hx
  split at hx
  · exact Or.inl hx
  · exact insertShift_mem arr (dv, idx) x ((List.take_sublist _ _).subset hx)

/-- A constant row is sorted. -/
theorem chain_replicate (n : ℕ) :
    (List.replicate n ((⊤ : WithTop ℚ), (-1 : ℤ))).Chain'
      (fun x y => x.1 ≤ y.1) := by
  induction n with
  | zero => simp
  | succ m ih =>
    cases m with
    | zero => simp
    | succ m' =>
      rw [List.replicate_succ, List.chain'_cons']
      refine ⟨?_, ih⟩
      intro y hy
      rw [List.replicate_succ, List.head?_cons, Option.mem_def,
        Option.some.injEq] at hy
      subst hy
      exact le_refl _

/-- Invariant of a kNN working row relative to a query: sorted, and every
entry is the sentinel or a nonnegative index different from the query. -/
def RowInv (qid : ℕ) (arr : List (WithTop ℚ × ℤ)) : Prop :=
  arr.Chain' (fun x y => x.1 ≤ y.1) ∧
    ∀ e ∈ arr, e.2 = -1 ∨ (0 ≤ e.2 ∧ e.2 ≠ (qid : ℤ))

/-- The thread-local phase establishes the row invariant. -/
theorem localTopK_inv (points : List ℚ) (n d k qid tid nthreads : ℕ) :
    RowInv qid (localTopK points n d k qid tid nthreads) := by
  unfold localTopK
  apply foldl_invariant (RowInv qid)
  · constructor
    · exact chain_replicate _
    · intro e he
      rw [List.eq_of_mem_replicate he]
      exact Or.inl rfl
  · intro arr i ha hi
    split
    · exact ha
    · constructor
      · exact insert_if_closer_sorted _ _ _ _ ha.1
      · intro e he
        rcases insert_if_closer_mem _ _ _ _ e he with h | h
        · exact ha.2 e h
        · subst h
          have hiq : i ≠ qid := by assumption
          refine Or.inr ⟨?_, ?_⟩
          · show (0 : ℤ) ≤ (i : ℤ)
            exact Int.natCast_nonneg i
          · show (i : ℤ) ≠ (qid : ℤ)
            exact_mod_cast hiq

/-- The merge phase establishes the row invariant. -/
theorem knnMergeRow_inv (points : List ℚ) (n d k qid nthreads : ℕ) :
    RowInv qid (knnMergeRow points n d k qid nthreads) := by
  unfold knnMergeRow
  apply foldl_invariant (RowInv qid)
  · constructor
    · exact chain_replicate _
    · intro e he
      rw [List.eq_of_mem_replicate he]
      exact Or.inl rfl
  · intro acc t hacc _
    apply foldl_invariant (RowInv qid)
    · exact hacc
    · intro arr e ha he
      split
      · constructor
        · exact insert_if_closer_sorted _ _ _ _ ha.1
        · intro x hx
          rcases insert_if_closer_mem _ _ _ _ x hx with h | h
          · exact ha.2 x h
          · subst h
            exact (localTopK_inv points n d k qid t nthreads).2 e he
      · exact ha

/-- The emitted kernel row is sorted and never mentions the query index. -/
theorem knnKernelRow_inv (points : List ℚ) (n d k qid nthreads : ℕ) :
    (knnKernelRow points n d k qid nthreads).Chain' (fun x y => x.1 ≤ y.1) ∧
    ∀ e ∈ knnKernelRow points n d k qid nthreads, e.2 ≠ (qid : ℤ) := by
  obtain ⟨hs, hm⟩ := knnMergeRow_inv points n d k qid nthreads
  set merged := knnMergeRow points n d k qid nthreads with hmerged
  constructor
  · unfold knnKernelRow
    rw [← hmerged]
    rcases Nat.eq_zero_or_pos k with hk | hk
    · subst hk; simp
    · rw [List.chain'_map, show k = (k - 1) + 1 by omega, List.chain'_range_succ]
      intro m hm2
      rcases lt_or_le (m + 1) merged.length with h1 | h1
      · rw [List.getD_eq_getElem _ _ (by omega), List.getD_eq_getElem _ _ h1]
        have := List.chain'_iff_get.mp hs m (by omega)
        simpa [List.get_eq_getElem] using this
      · rw [List.getD_eq_default _ _ h1]
        exact le_top
  · intro e he
    unfold knnKernelRow at he
    rw [← hmerged] at he
    obtain ⟨i, _, hie⟩ := List.mem_map.mp he
    rcases lt_or_le i merged.length with h1 | h1
    · rw [List.getD_eq_getElem _ _ h1] at hie
      subst hie
      rcases hm _ (List.getElem_mem h1) with h | h
      · rw [h]; omega
      · exact h.2
    · rw [List.getD_eq_default _ _ h1] at hie
      subst hie
      omega

/-- C6: on a successful `topo_gpu_knn` call with the spec's preconditions,
every output distance row is non-decreasing and no index row contains the
query itself. -/
theorem C6_knn_row_ordering (points : List ℚ) (n d k : ℤ)
    (rows : List (List (WithTop ℚ × ℤ)))
    (hn : 2 ≤ n) (hd : 1 ≤ d) (hk0 : 0 < k) (hkn : k < n)
    (hok : topo_gpu_knn points n d k = .ok rows) :
    (∀ i < n.toNat,
      (rows.getD i []).Chain' (fun x y : WithTop ℚ × ℤ => x.1 ≤ y.1)) ∧
    (∀ i < n.toNat, ∀ r < k.toNat,
      ((rows.getD i []).getD r (⊤, -1)).2 ≠ (i : ℤ)) := by
  unfold topo_gpu_knn at hok
  rcases em (n ≤ 0 ∨ d ≤ 0 ∨ k ≤ 0 ∨ n ≤ k) with hg | hg
  · rw [if_pos hg] at hok; exact absurd hok (by simp)
  rw [if_neg hg] at hok
  rcases em ((256 : ℤ) < k) with hg2 | hg2
  · rw [if_pos hg2] at hok; exact absurd hok (by simp)
  rw [if_neg hg2] at hok
  have hrows : rows = (List.range n.toNat).map
      (fun qid => knnKernelRow points n.toNat d.toNat k.toNat qid 256) := by
    cases hok; rfl
  subst hrows
  have hget : ∀ i < n.toNat, ((List.range n.toNat).map
      (fun qid => knnKernelRow points n.toNat d.toNat k.toNat qid 256)).getD i []
      = knnKernelRow points n.toNat d.toNat k.toNat i 256 := by
    intro i hi
    rw [List.getD_eq_getElem _ _ (by simpa using hi)]
    simp
  constructor
  · intro i hi
    rw [hget i hi]
    exact (knnKernelRow_inv points n.toNat d.toNat k.toNat i 256).1
  · intro i hi r hr
    rw [hget i hi]
    set row := knnKernelRow points n.toNat d.toNat k.toNat i 256 with hrow
    rcases lt_or_le r row.length with h1 | h1
    · rw [List.getD_eq_getElem _ _ h1]
      exact (knnKernelRow_inv points n.toNat d.toNat k.toNat i 256).2 _
        (List.getElem_mem h1)
    · rw [List.getD_eq_default _ _ h1]
      simp only []
      omega

/-- Witness for C6 at two points on a line, `k = 1`. -/
theorem C6_knn_row_ordering_witness :
    topo_gpu_knn [0, 7] 2 1 1 = .ok ((List.range (2 : ℤ).toNat).map
      (fun qid => knnKernelRow [0, 7] (2 : ℤ).toNat (1 : ℤ).toNat (1 : ℤ).toNat qid 256)) ∧
    (∀ i < (2 : ℤ).toNat,
      ((((List.range (2 : ℤ).toNat).map
        (fun qid => knnKernelRow [0, 7] (2 : ℤ).toNat (1 : ℤ).toNat (1 : ℤ).toNat qid 256)).getD i
        []).Chain' (fun x y : WithTop ℚ × ℤ => x.1 ≤ y.1))) ∧
    (∀ i < (2 : ℤ).toNat, ∀ r < (1 : ℤ).toNat,
      ((((List.range (2 : ℤ).toNat).map
        (fun qid => knnKernelRow [0, 7] (2 : ℤ).toNat (1 : ℤ).toNat (1 : ℤ).toNat qid 256)).getD i
        []).getD r (⊤, -1)).2 ≠ (i : ℤ)) := by
  have h := C6_knn_row_ordering [0, 7] 2 1 1 _
    (by norm_num) (by norm_num) (by norm_num) (by norm_num) rfl
  exact ⟨rfl, h.1, h.2⟩

/-! ## Shared H1 and sorting lemmas -/

/-- Specification of the `find_edge` scan loop. -/
theorem findEdgeAux_spec (u v : ℕ) :
    ∀ (l : List EdgeInfo) (base r : ℕ), findEdgeAux u v l base = some r →
      ∃ j, j < l.length ∧ r = base + j ∧
        normPair (l.getD j default).src (l.getD j default).dst = normPair u v := by
  intro l
  induction l with
  | nil => intro base r h; exact absurd h (by simp [findEdgeAux])
  | cons e rest ih =>
    intro base r h
    unfold findEdgeAux at h
    split at h
    case isTrue hmatch =>
      injection h with hbr
      subst hbr
      exact ⟨0, by simp, by omega, by simpa using hmatch⟩
    case isFalse hmatch =>
      obtain ⟨j, hj, hr, hm⟩ := ih (base + 1) r h
      exact ⟨j + 1, by simpa using hj, by omega, by simpa using hm⟩

/-- A hit of `find_edge` is an in-range index whose edge joins the queried
pair. -/
theorem find_edge_spec (edges : List EdgeInfo) (u v r : ℕ)
    (h : find_edge edges u v = some r) :
    r < edges.length ∧
      normPair (edges.getD r default).src (edges.getD r default).dst =
        normPair u v := by
  obtain ⟨j, hj, hr, hmatch⟩ := findEdgeAux_spec u v edges 0 r h
  subst hr
  exact ⟨by simpa using hj, by simpa using hmatch⟩

/-- Unfolding: an empty left column. -/
theorem xorMerge_nil_left (l : List ℕ) : xorMerge [] l = l := by
  rw [xorMerge.eq_def]
  cases l <;> rfl

/-- Unfolding: an empty right column. -/
theorem xorMerge_nil_right (l : List ℕ) : xorMerge l [] = l := by
  cases l with
  | nil => rw [xorMerge.eq_def]
  | cons a as => rw [xorMerge.eq_def]

/-- Unfolding: two nonempty columns. -/
theorem xorMerge_cons_cons (a b : ℕ) (as bs : List ℕ) :
    xorMerge (a :: as) (b :: bs) =
      if b < a then a :: xorMerge as (b :: bs)
      else if a < b then b :: xorMerge (a :: as) bs
      else xorMerge as bs := by
  rw [xorMerge.eq_def]

/-- Entries of the XOR merge come from one of the two columns. -/
theorem xorMerge_mem (l1 l2 : List ℕ) (x : ℕ) (hx : x ∈ xorMerge l1 l2) :
    x ∈ l1 ∨ x ∈ l2 := by
  induction l1, l2 using xorMerge.induct with
  | case1 l => rw [xorMerge_nil_left] at hx; exact Or.inr hx
  | case2 l hl => rw [xorMerge_nil_right] at hx; exact Or.inl hx
  | case3 a as b bs hab ih =>
    rw [xorMerge_cons_cons, if_pos hab] at hx
    rcases List.mem_cons.mp hx with h | h
    · exact Or.inl (by simp [h])
    · rcases ih h with h' | h'
      · exact Or.inl (List.mem_cons.mpr (Or.inr h'))
      · exact Or.inr h'
  | case4 a as b bs hab hba ih =>
    rw [xorMerge_cons_cons, if_neg hab, if_pos hba] at hx
    rcases List.mem_cons.mp hx with h | h
    · exact Or.inr (by simp [h])
    · rcases ih h with h' | h'
      · exact Or.inl h'
      · exact Or.inr (List.mem_cons.mpr (Or.inr h'))
  | case5 a as b bs hab hba ih =>
    rw [xorMerge_cons_cons, if_neg hab, if_neg hba] at hx
    rcases ih hx with h' | h'
    · exact Or.inl (List.mem_cons.mpr (Or.inr h'))
    · exact Or.inr (List.mem_cons.mpr (Or.inr h'))

/-- Entries of a descending insertion. -/
theorem insertDesc_mem (a x : ℕ) (l : List ℕ) (hx : x ∈ insertDesc a l) :
    x = a ∨ x ∈ l := by
  induction l with
  | nil => simp only [insertDesc, List.mem_singleton] at hx; exact Or.inl hx
  | cons b bs ih =>
    unfold insertDesc at hx
    split at hx
    · rcases List.mem_cons.mp hx with h | h
      · exact Or.inl h
      · exact Or.inr h
    · rcases List.mem_cons.mp hx with h | h
      · exact Or.inr (by simp [h])
      · rcases ih h with h' | h'
        · exact Or.inl h'
        · exact Or.inr (List.mem_cons.mpr (Or.inr h'))

/-- Entries of the descending sort come from the input. -/
theorem sortDesc_mem (l : List ℕ) (x : ℕ) (hx : x ∈ sortDesc l) : x ∈ l := by
  induction l with
  | nil => simpa [sortDesc] using hx
  | cons b bs ih =>
    unfold sortDesc at hx
    rcases insertDesc_mem b x _ hx with h | h
    · simp [h]
    · exact List.mem_cons.mpr (Or.inr (ih h))

/-- Entries of a boundary column are `find_edge` hits on the triangle's
three vertex pairs. -/
theorem buildColumn_mem (SE : List EdgeInfo) (tr : TriSortKey) (r : ℕ)
    (hr : r ∈ buildColumn SE tr) :
    (find_edge SE tr.v0 tr.v1 = some r ∨ find_edge SE tr.v0 tr.v2 = some r ∨
      find_edge SE tr.v1 tr.v2 = some r) := by
  unfold buildColumn at hr
  have hr' := sortDesc_mem _ _ hr
  simp only [List.filterMap_cons, List.filterMap_nil] at hr'
  rcases h01 : find_edge SE tr.v0 tr.v1 with _ | r1 <;>
    rcases h02 : find_edge SE tr.v0 tr.v2 with _ | r2 <;>
    rcases h12 : find_edge SE tr.v1 tr.v2 with _ | r3 <;>
    rw [h01, h02, h12] at hr' <;> simp at hr' <;> try tauto

/-- The stable insertion permutes its input. -/
theorem insertLeB_perm {α : Type} (leB : α → α → Bool) (a : α) (l : List α) :
    (insertLeB leB a l).Perm (a :: l) := by
  induction l with
  | nil => simp [insertLeB]
  | cons x xs ih =>
    unfold insertLeB
    split
    · exact ((ih.cons x).trans (List.Perm.swap a x xs))
    · exact List.Perm.refl _

/-- The embedded comparison sort permutes its input. -/
theorem sortLeB_perm {α : Type} (leB : α → α → Bool) (l : List α) :
    (sortLeB leB l).Perm l := by
  induction l with
  | nil => simp [sortLeB]
  | cons x xs ih =>
    exact (insertLeB_perm leB x (sortLeB leB xs)).trans (ih.cons x)

/-- The head after a stable insertion is the old head or the new element. -/
theorem insertLeB_head {α : Type} (leB : α → α → Bool) (a y : α) (l : List α)
    (hy : y ∈ (insertLeB leB a l).head?) : y ∈ l.head? ∨ y = a := by
  cases l with
  | nil => simp only [insertLeB, List.head?_cons, Option.mem_def,
      Option.some.injEq] at hy; exact Or.inr hy.symm
  | cons x xs =>
    unfold insertLeB at hy
    split at hy
    · simp only [List.head?_cons, Option.mem_def, Option.some.injEq] at hy
      exact Or.inl (by simp [hy])
    · simp only [List.head?_cons, Option.mem_def, Option.some.injEq] at hy
      exact Or.inr hy.symm

/-- A stable insertion into a sorted list is sorted, given totality of the
boolean preorder. -/
theorem insertLeB_chain {α : Type} (leB : α → α → Bool)
    (htot : ∀ a b, leB a b = false → leB b a = true) (a : α) (l : List α)
    (h : l.Chain' (fun x y => leB x y = true)) :
    (insertLeB leB a l).Chain' (fun x y => leB x y = true) := by
  induction l with
  | nil => simp [insertLeB]
  | cons x xs ih =>
    rw [List.chain'_cons'] at h
    unfold insertLeB
    split
    case isTrue hxa =>
      rw [List.chain'_cons']
      refine ⟨?_, ih h.2⟩
      intro y hy
      rcases insertLeB_head leB a y xs hy with h' | h'
      · exact h.1 y h'
      · subst h'; exact hxa
    case isFalse hxa =>
      rw [List.chain'_cons']
      refine ⟨?_, List.chain'_cons'.mpr h⟩
      intro y hy
      simp only [List.head?_cons, Option.mem_def, Option.some.injEq] at hy
      subst hy
      exact htot x a (Bool.not_eq_true _ ▸ hxa)

/-- The embedded comparison sort sorts, given totality. -/
theorem sortLeB_chain {α : Type} (leB : α → α → Bool)
    (htot : ∀ a b, leB a b = false → leB b a = true) (l : List α) :
    (sortLeB leB l).Chain' (fun x y => leB x y = true) := by
  induction l with
  | nil => simp [sortLeB]
  | cons x xs ih => exact insertLeB_chain leB htot x _ ih

/-- The H0 edge comparator accepts exactly the filtration order. -/
theorem edge_compare_nonpos (a b : EdgeSortKey) :
    edge_compare a b ≤ 0 ↔ a.filt ≤ b.filt := by
  unfold edge_compare
  split_ifs with h1 h2
  · simp [h1.le]
  · simp [not_le.mpr h2]
  · have h3 : a.filt ≤ b.filt := le_of_not_lt h2
    simp [h3]

/-- The H1 edge comparator accepts exactly the filtration order. -/
theorem edge_info_compare_nonpos (a b : EdgeInfo) :
    edge_info_compare a b ≤ 0 ↔ a.filt ≤ b.filt := by
  unfold edge_info_compare
  split_ifs with h1 h2
  · simp [h1.le]
  · simp [not_le.mpr h2]
  · have h3 : a.filt ≤ b.filt := le_of_not_lt h2
    simp [h3]

/-- The triangle comparator accepts exactly the filtration order. -/
theorem tri_compare_nonpos (a b : TriSortKey) :
    tri_compare a b ≤ 0 ↔ a.filt ≤ b.filt := by
  unfold tri_compare
  split_ifs with h1 h2
  · simp [h1.le]
  · simp [not_le.mpr h2]
  · have h3 : a.filt ≤ b.filt := le_of_not_lt h2
    simp [h3]

/-- The sorted triangle list is sorted by filtration. -/
theorem sortTris_chain (tris : List TriSortKey) :
    (sortTris tris).Chain' (fun a b => a.filt ≤ b.filt) := by
  have h := sortLeB_chain (fun a b => decide (tri_compare a b ≤ 0))
    (fun a b hab => by
      rw [decide_eq_true_eq, tri_compare_nonpos]
      rw [decide_eq_false_iff_not, tri_compare_nonpos, not_le] at hab
      exact hab.le) tris
  exact h.imp (fun {a b} hab => by
    rw [decide_eq_true_eq, tri_compare_nonpos] at hab; exact hab)

/-- The sorted H1 edge list is sorted by filtration. -/
theorem sortEdgeInfos_chain (edges : List EdgeInfo) :
    (sortEdgeInfos edges).Chain' (fun a b => a.filt ≤ b.filt) := by
  have h := sortLeB_chain (fun a b => decide (edge_info_compare a b ≤ 0))
    (fun a b hab => by
      rw [decide_eq_true_eq, edge_info_compare_nonpos]
      rw [decide_eq_false_iff_not, edge_info_compare_nonpos, not_le] at hab
      exact hab.le) edges
  exact h.imp (fun {a b} hab => by
    rw [decide_eq_true_eq, edge_info_compare_nonpos] at hab; exact hab)

/-! ## C1 (amended): emitted pairs satisfy death ≥ birth -/

/-- Reading through a `set`. -/
theorem getD_set {α : Type} (l : List α) (i j : ℕ) (v dflt : α) :
    (l.set i v).getD j dflt =
      if i = j ∧ i < l.length then v else l.getD j dflt := by
  rw [List.getD_eq_getElem?_getD, List.getElem?_set, List.getD_eq_getElem?_getD]
  rcases em (i = j) with hij | hij
  · rcases em (i < l.length) with hil | hil
    · rw [if_pos hij, if_pos hil, if_pos ⟨hij, hil⟩]; rfl
    · rw [if_pos hij, if_neg hil, if_neg (by tauto),
        List.getElem?_eq_none (show l.length ≤ j by omega)]
  · rw [if_neg hij, if_neg (by tauto)]

/-- Unfolding: a spent budget. -/
theorem reduceColumn_zero (SE : List EdgeInfo) (ST : List TriSortKey)
    (st : H1State) (k : ℕ) : reduceColumn SE ST 0 st k = none := rfl

/-- Unfolding: an empty column finishes immediately. -/
theorem reduceColumn_succ_empty (SE : List EdgeInfo) (ST : List TriSortKey)
    (fuel : ℕ) (st : H1State) (k : ℕ) (h : st.cols.getD k [] = []) :
    reduceColumn SE ST (fuel + 1) st k = some st := by
  rw [reduceColumn.eq_def]
  rw [List.getD_eq_getElem?_getD] at h
  simp [h]

/-- Unfolding: an unowned pivot registers and emits. -/
theorem reduceColumn_succ_unowned (SE : List EdgeInfo) (ST : List TriSortKey)
    (fuel : ℕ) (st : H1State) (k pivot : ℕ) (rest : List ℕ)
    (hcol : st.cols.getD k [] = pivot :: rest)
    (hown : st.owner.getD pivot none = none) :
    reduceColumn SE ST (fuel + 1) st k = some { st with
      owner := (st.owner.set pivot (some k))
      pairs := (st.pairs ++
        [((SE.getD pivot default).filt, (ST.getD k default).filt)]) } := by
  rw [reduceColumn.eq_def]
  rw [List.getD_eq_getElem?_getD] at hcol hown
  simp [hcol, hown]

/-- Unfolding: an owned pivot XORs the owner column in. -/
theorem reduceColumn_succ_owned (SE : List EdgeInfo) (ST : List TriSortKey)
    (fuel : ℕ) (st : H1State) (k pivot q : ℕ) (rest : List ℕ)
    (hcol : st.cols.getD k [] = pivot :: rest)
    (hown : st.owner.getD pivot none = some q) :
    reduceColumn SE ST (fuel + 1) st k =
      reduceColumn SE ST fuel
        { st with cols := (st.cols.set k
            (xorMerge (pivot :: rest) (st.cols.getD q []))) } k := by
  rw [reduceColumn.eq_def]
  rw [List.getD_eq_getElem?_getD] at hcol hown
  simp [hcol, hown]

/-- Monotonicity of the sorted triangle filtrations in column position. -/
theorem triFilt_mono (ST : List TriSortKey)
    (hmono : ST.Chain' (fun a b => a.filt ≤ b.filt))
    (q k : ℕ) (hqk : q < k) (hk : k < ST.length) :
    (ST.getD q default).filt ≤ (ST.getD k default).filt := by
  haveI : IsTrans TriSortKey (fun a b => a.filt ≤ b.filt) :=
    ⟨fun a b c hab hbc => le_trans hab hbc⟩
  have hp := List.chain'_iff_pairwise.mp hmono
  have hq : q < ST.length := lt_trans hqk hk
  have := List.pairwise_iff_get.mp hp ⟨q, hq⟩ ⟨k, hk⟩ hqk
  rw [List.getD_eq_getElem _ _ hq, List.getD_eq_getElem _ _ hk]
  simpa [List.get_eq_getElem] using this

/-- One column's reduction preserves the filtration and ownership
invariants and only emits good pairs. -/
theorem reduceColumn_inv (SE : List EdgeInfo) (ST : List TriSortKey)
    (hmono : ST.Chain' (fun a b => a.filt ≤ b.filt)) :
    ∀ (fuel : ℕ) (st st' : H1State) (k : ℕ), k < ST.length →
    ColsBound SE ST st.cols → OwnerBound st.owner k → PairsGood st.pairs →
    reduceColumn SE ST fuel st k = some st' →
    ColsBound SE ST st'.cols ∧ OwnerBound st'.owner (k + 1) ∧
      PairsGood st'.pairs := by
  intro fuel
  induction fuel with
  | zero =>
    intro st st' k _ _ _ _ h
    exact absurd h (by simp [reduceColumn_zero])
  | succ f ih =>
    intro st st' k hk hcb hob hpg h
    rcases hcol : st.cols.getD k [] with _ | ⟨pivot, rest⟩
    · rw [reduceColumn_succ_empty SE ST f st k hcol] at h
      cases h
      exact ⟨hcb, fun r q hq => Nat.lt_succ_of_lt (hob r q hq), hpg⟩
    · rcases hown : st.owner.getD pivot none with _ | q
      · rw [reduceColumn_succ_unowned SE ST f st k pivot rest hcol hown] at h
        cases h
        refine ⟨hcb, ?_, ?_⟩
        · intro r q hq
          dsimp only at hq
          rw [getD_set] at hq
          split at hq
          · cases hq; omega
          · exact Nat.lt_succ_of_lt (hob r q hq)
        · intro p hp
          dsimp only at hp
          rcases List.mem_append.mp hp with h' | h'
          · exact hpg p h'
          · rw [List.mem_singleton] at h'
            subst h'
            exact hcb k pivot (by rw [hcol]; exact List.mem_cons_self _ _)
      · rw [reduceColumn_succ_owned SE ST f st k pivot q rest hcol hown] at h
        refine ih { st with cols := (st.cols.set k
          (xorMerge (pivot :: rest) (st.cols.getD q []))) } st' k hk ?_ hob hpg h
        intro c r hr
        dsimp only at hr
        rw [getD_set] at hr
        split at hr
        case isTrue hck =>
          obtain ⟨hck', _⟩ := hck
          subst hck'
          rcases xorMerge_mem _ _ r hr with h' | h'
          · exact hcb k r (by rw [hcol]; exact h')
          · have hq : q < k := hob pivot q hown
            exact le_trans (hcb q r h') (triFilt_mono ST hmono q k hq hk)
        case isFalse => exact hcb c r hr

/-- The whole sweep over increasing column indices emits only good pairs. -/
theorem reduceSweep_inv (SE : List EdgeInfo) (ST : List TriSortKey)
    (hmono : ST.Chain' (fun a b => a.filt ≤ b.filt)) :
    ∀ (ks : List ℕ) (fuel : ℕ) (st st' : H1State) (b : ℕ),
    (∀ k ∈ ks, b ≤ k ∧ k < ST.length) → ks.Pairwise (· < ·) →
    ColsBound SE ST st.cols → OwnerBound st.owner b → PairsGood st.pairs →
    reduceSweep SE ST fuel ks st = some st' → PairsGood st'.pairs := by
  intro ks
  induction ks with
  | nil =>
    intro fuel st st' b _ _ _ _ hpg h
    cases h
    exact hpg
  | cons k rest ih =>
    intro fuel st st' b hks hchain hcb hob hpg h
    rcases hc : reduceColumn SE ST fuel st k with _ | st1
    · rw [reduceSweep_cons_none SE ST fuel k rest st hc] at h
      exact absurd h (by simp)
    · rw [reduceSweep_cons_some SE ST fuel k rest st st1 hc] at h
      have hk := hks k (by simp)
      obtain ⟨hinv1, hinv2, hinv3⟩ := reduceColumn_inv SE ST hmono fuel st st1 k
        hk.2 hcb (fun r q hq => lt_of_lt_of_le (hob r q hq) hk.1) hpg hc
      rw [List.pairwise_cons] at hchain
      refine ih fuel st1 st' (k + 1) ?_ hchain.2 hinv1 hinv2 hinv3 h
      intro k' hk'
      exact ⟨hchain.1 k' hk', (hks k' (by simp [hk'])).2⟩

/-- A finished H1 reduction, on any fuel, emits only pairs with
death ≥ birth, provided the initial boundary columns respect the
triangle filtrations. -/
theorem h1Reduce_pairs_good (SE : List EdgeInfo) (ST : List TriSortKey)
    (fuel : ℕ) (pairs : List (ℚ × ℚ))
    (hmono : ST.Chain' (fun a b => a.filt ≤ b.filt))
    (hinit : ∀ c, c < ST.length →
      ∀ r ∈ buildColumn SE (ST.getD c default),
        (SE.getD r default).filt ≤ (ST.getD c default).filt)
    (h : h1Reduce SE ST fuel = some pairs) : PairsGood pairs := by
  unfold h1Reduce at h
  rcases hsw : reduceSweep SE ST fuel (List.range ST.length)
      { cols := ST.map (buildColumn SE), owner := List.replicate SE.length none,
        pairs := [] } with _ | stF
  · rw [hsw] at h; exact absurd h (by simp)
  · rw [hsw] at h
    simp only [Option.map_some', Option.some.injEq] at h
    subst h
    refine reduceSweep_inv SE ST hmono (List.range ST.length) fuel _ stF 0
      (fun k hk => ⟨Nat.zero_le k, List.mem_range.mp hk⟩)
      (List.pairwise_lt_range ST.length) ?_ ?_ (by intro p hp; cases hp) hsw
    · intro c r hr
      rcases lt_or_le c ST.length with hc | hc
      · rw [List.getD_eq_getElem _ _ (by simpa using hc), List.getElem_map] at hr
        have hgetD : ST.getD c default = ST[c] := List.getD_eq_getElem ST default hc
        exact hinit c hc r (by rw [hgetD]; exact hr)
      · rw [List.getD_eq_default _ _ (by simpa using hc)] at hr
        cases hr
    · intro r q hq
      rcases lt_or_le r SE.length with hrl | hrl
      · rw [List.getD_eq_getElem _ _ (by simpa using hrl)] at hq
        simp at hq
      · rw [List.getD_eq_default _ _ (by simpa using hrl)] at hq
        cases hq

/-- C1 (amended): every pair returned by `topo_gpu_persistence_h1`
satisfies death ≥ birth whenever every triangle's filtration dominates the
filtration of each edge joining two of its vertices; pairs with
death == birth are not suppressed. -/
theorem C1_h1_pairs_death_ge_birth (edges : List EdgeInfo)
    (tris : List TriSortKey) (m t : ℤ) (pairs : List (ℚ × ℚ))
    (hfilt : ∀ tr ∈ tris, ∀ e ∈ edges,
      (normPair e.src e.dst = normPair tr.v0 tr.v1 ∨
       normPair e.src e.dst = normPair tr.v0 tr.v2 ∨
       normPair e.src e.dst = normPair tr.v1 tr.v2) → e.filt ≤ tr.filt)
    (hok : topo_gpu_persistence_h1 edges tris m t = some (.ok pairs)) :
    ∀ p ∈ pairs, p.1 ≤ p.2 := by
  unfold topo_gpu_persistence_h1 at hok
  split at hok
  · simp only [Option.some.injEq, Except.ok.injEq] at hok
    subst hok
    intro p hp
    cases hp
  · rcases hrun : h1WithFuel (edges.take m.toNat) (tris.take t.toNat)
        (m.toNat + 2) with _ | pairs'
    · rw [hrun] at hok; exact absurd hok (by simp)
    · rw [hrun] at hok
      simp only [Option.map_some', Option.some.injEq, Except.ok.injEq] at hok
      subst hok
      unfold h1WithFuel at hrun
      set SE := sortEdgeInfos (edges.take m.toNat) with hSE
      set ST := sortTris (tris.take t.toNat) with hST
      refine h1Reduce_pairs_good SE ST (m.toNat + 2) pairs' (sortTris_chain _)
        ?_ hrun
      intro c hc r hr
      have htr : ST.getD c default ∈ tris := by
        rw [List.getD_eq_getElem _ _ hc]
        have h1 : ST[c] ∈ ST := List.getElem_mem hc
        have h2 := (sortLeB_perm (fun a b => decide (tri_compare a b ≤ 0))
          (tris.take t.toNat)).subset h1
        exact List.take_subset _ _ h2
      have hhit := buildColumn_mem SE (ST.getD c default) r hr
      have hedge : ∀ u v : ℕ, find_edge SE u v = some r →
          (SE.getD r default ∈ edges ∧
            normPair (SE.getD r default).src (SE.getD r default).dst =
              normPair u v) := by
        intro u v hfe
        obtain ⟨hlt, hnp⟩ := find_edge_spec SE u v r hfe
        refine ⟨?_, hnp⟩
        rw [List.getD_eq_getElem _ _ hlt]
        have h1 : SE[r] ∈ SE := List.getElem_mem hlt
        have h2 := (sortLeB_perm (fun a b => decide (edge_info_compare a b ≤ 0))
          (edges.take m.toNat)).subset h1
        exact List.take_subset _ _ h2
      rcases hhit with hfe | hfe | hfe
      · obtain ⟨hmem, hnp⟩ := hedge _ _ hfe
        exact hfilt _ htr _ hmem (Or.inl hnp)
      · obtain ⟨hmem, hnp⟩ := hedge _ _ hfe
        exact hfilt _ htr _ hmem (Or.inr (Or.inl hnp))
      · obtain ⟨hmem, hnp⟩ := hedge _ _ hfe
        exact hfilt _ htr _ hmem (Or.inr (Or.inr hnp))

/-- Witness for the amended C1 on the filled triangle that emits `(3, 3)`. -/
theorem C1_h1_pairs_death_ge_birth_witness :
    topo_gpu_persistence_h1 [⟨0, 1, 1⟩, ⟨0, 2, 2⟩, ⟨1, 2, 3⟩] [⟨3, 0, 1, 2⟩] 3 1 =
      some (.ok [((3 : ℚ), (3 : ℚ))]) ∧
    (∀ p ∈ [((3 : ℚ), (3 : ℚ))], p.1 ≤ p.2) := by
  refine ⟨by rfl, ?_⟩
  exact C1_h1_pairs_death_ge_birth [⟨0, 1, 1⟩, ⟨0, 2, 2⟩, ⟨1, 2, 3⟩]
    [⟨3, 0, 1, 2⟩] 3 1 [(3, 3)] (by decide) (by rfl)

/-! ## C9 (amended): the reduction terminates on distinct-vertex triangles -/

/-- Tail elements of a strictly descending list are below the head. -/
theorem chain_gt_head (a : ℕ) (l : List ℕ)
    (h : (a :: l).Chain' (fun x y => y < x)) : ∀ x ∈ l, x < a := by
  haveI : IsTrans ℕ (fun x y : ℕ => y < x) :=
    ⟨fun a b c h1 h2 => lt_trans h2 h1⟩
  have hp := List.chain'_iff_pairwise.mp h
  exact fun x hx => (List.pairwise_cons.mp hp).1 x hx

/-- The XOR merge of strictly descending lists is strictly descending. -/
theorem xorMerge_chain_gt (l1 l2 : List ℕ)
    (h1 : l1.Chain' (fun x y => y < x)) (h2 : l2.Chain' (fun x y => y < x)) :
    (xorMerge l1 l2).Chain' (fun x y => y < x) := by
  induction l1, l2 using xorMerge.induct with
  | case1 l => rw [xorMerge_nil_left]; exact h2
  | case2 l hl => rw [xorMerge_nil_right]; exact h1
  | case3 a as b bs hab ih =>
    rw [xorMerge_cons_cons, if_pos hab]
    rw [List.chain'_cons']
    refine ⟨?_, ih (List.chain'_cons'.mp h1).2 h2⟩
    intro y hy
    have hmem := List.mem_of_mem_head? hy
    rcases xorMerge_mem _ _ y hmem with h' | h'
    · exact chain_gt_head a as h1 y h'
    · rcases List.mem_cons.mp h' with h'' | h''
      · subst h''; exact hab
      · exact lt_trans (chain_gt_head b bs h2 y h'') hab
  | case4 a as b bs hab hba ih =>
    rw [xorMerge_cons_cons, if_neg hab, if_pos hba]
    rw [List.chain'_cons']
    refine ⟨?_, ih h1 (List.chain'_cons'.mp h2).2⟩
    intro y hy
    have hmem := List.mem_of_mem_head? hy
    rcases xorMerge_mem _ _ y hmem with h' | h'
    · rcases List.mem_cons.mp h' with h'' | h''
      · subst h''; exact hba
      · exact lt_trans (chain_gt_head a as h1 y h'') hba
    · exact chain_gt_head b bs h2 y h'
  | case5 a as b bs hab hba ih =>
    rw [xorMerge_cons_cons, if_neg hab, if_neg hba]
    exact ih (List.chain'_cons'.mp h1).2 (List.chain'_cons'.mp h2).2

/-- Head characterization of the descending insertion. -/
theorem insertDesc_head (a y : ℕ) (l : List ℕ)
    (hy : y ∈ (insertDesc a l).head?) : y ∈ l.head? ∨ y = a := by
  cases l with
  | nil => simp only [insertDesc, List.head?_cons, Option.mem_def,
      Option.some.injEq] at hy; exact Or.inr hy.symm
  | cons x xs =>
    unfold insertDesc at hy
    split at hy
    · simp only [List.head?_cons, Option.mem_def, Option.some.injEq] at hy
      exact Or.inr hy.symm
    · simp only [List.head?_cons, Option.mem_def, Option.some.injEq] at hy
      exact Or.inl (by simp [hy])

/-- The descending insertion keeps the descending order. -/
theorem insertDesc_chain_ge (a : ℕ) (l : List ℕ)
    (h : l.Chain' (fun x y => y ≤ x)) :
    (insertDesc a l).Chain' (fun x y => y ≤ x) := by
  induction l with
  | nil => simp [insertDesc]
  | cons x xs ih =>
    rw [List.chain'_cons'] at h
    unfold insertDesc
    split
    case isTrue hxa =>
      rw [List.chain'_cons']
      refine ⟨?_, List.chain'_cons'.mpr h⟩
      intro y hy
      simp only [List.head?_cons, Option.mem_def, Option.some.injEq] at hy
      subst hy
      exact hxa.le
    case isFalse hxa =>
      rw [List.chain'_cons']
      refine ⟨?_, ih h.2⟩
      intro y hy
      rcases insertDesc_head a y xs hy with h' | h'
      · exact h.1 y h'
      · subst h'
        omega

/-- The descending sort is descending. -/
theorem sortDesc_chain_ge (l : List ℕ) :
    (sortDesc l).Chain' (fun x y => y ≤ x) := by
  induction l with
  | nil => simp [sortDesc]
  | cons x xs ih => exact insertDesc_chain_ge x _ ih

/-- The descending insertion permutes. -/
theorem insertDesc_perm (a : ℕ) (l : List ℕ) :
    (insertDesc a l).Perm (a :: l) := by
  induction l with
  | nil => simp [insertDesc]
  | cons x xs ih =>
    unfold insertDesc
    split
    · exact List.Perm.refl _
    · exact ((ih.cons x).trans (List.Perm.swap a x xs))

/-- The descending sort permutes. -/
theorem sortDesc_perm (l : List ℕ) : (sortDesc l).Perm l := by
  induction l with
  | nil => simp [sortDesc]
  | cons x xs ih => exact (insertDesc_perm x (sortDesc xs)).trans (ih.cons x)

/-- Normalized pairs agree only on equal unordered pairs. -/
theorem normPair_eq_cases (a b c d : ℕ) (h : normPair a b = normPair c d) :
    (a = c ∧ b = d) ∨ (a = d ∧ b = c) := by
  unfold normPair at h
  split_ifs at h <;> (rw [Prod.mk.injEq] at h; omega)

/-- Two `find_edge` hits at the same index query the same unordered pair. -/
theorem find_edge_inj (SE : List EdgeInfo) (u v w z r : ℕ)
    (h1 : find_edge SE u v = some r) (h2 : find_edge SE w z = some r) :
    normPair u v = normPair w z := by
  obtain ⟨_, e1⟩ := find_edge_spec SE u v r h1
  obtain ⟨_, e2⟩ := find_edge_spec SE w z r h2
  exact e1.symm.trans e2

/-- The candidate row list of a distinct-vertex triangle has no
duplicates. -/
theorem buildColumn_candidates_nodup (SE : List EdgeInfo) (tr : TriSortKey)
    (hd : tr.v0 ≠ tr.v1 ∧ tr.v0 ≠ tr.v2 ∧ tr.v1 ≠ tr.v2) :
    (([find_edge SE tr.v0 tr.v1, find_edge SE tr.v0 tr.v2,
      find_edge SE tr.v1 tr.v2]).filterMap id).Nodup := by
  obtain ⟨h01, h02, h12⟩ := hd
  have k1 : ∀ r, find_edge SE tr.v0 tr.v1 = some r →
      find_edge SE tr.v0 tr.v2 = some r → False := by
    intro r hA hB
    rcases normPair_eq_cases _ _ _ _ (find_edge_inj SE _ _ _ _ r hA hB) with
      ⟨_, h'⟩ | ⟨h', h''⟩ <;> omega
  have k2 : ∀ r, find_edge SE tr.v0 tr.v1 = some r →
      find_edge SE tr.v1 tr.v2 = some r → False := by
    intro r hA hB
    rcases normPair_eq_cases _ _ _ _ (find_edge_inj SE _ _ _ _ r hA hB) with
      ⟨h', _⟩ | ⟨h', h''⟩ <;> omega
  have k3 : ∀ r, find_edge SE tr.v0 tr.v2 = some r →
      find_edge SE tr.v1 tr.v2 = some r → False := by
    intro r hA hB
    rcases normPair_eq_cases _ _ _ _ (find_edge_inj SE _ _ _ _ r hA hB) with
      ⟨h', _⟩ | ⟨h', h''⟩ <;> omega
  rcases e1 : find_edge SE tr.v0 tr.v1 with _ | r1 <;>
    rcases e2 : find_edge SE tr.v0 tr.v2 with _ | r2 <;>
    rcases e3 : find_edge SE tr.v1 tr.v2 with _ | r3 <;>
    simp_all [List.filterMap_cons] <;> omega

/-- Boundary columns of distinct-vertex triangles are strictly
descending. -/
theorem buildColumn_strict (SE : List EdgeInfo) (tr : TriSortKey)
    (hd : tr.v0 ≠ tr.v1 ∧ tr.v0 ≠ tr.v2 ∧ tr.v1 ≠ tr.v2) :
    (buildColumn SE tr).Chain' (fun x y => y < x) := by
  unfold buildColumn
  set L := ([find_edge SE tr.v0 tr.v1, find_edge SE tr.v0 tr.v2,
    find_edge SE tr.v1 tr.v2]).filterMap id with hL
  have hnd : L.Nodup := buildColumn_candidates_nodup SE tr hd
  have hnds : (sortDesc L).Nodup := ((sortDesc_perm L).nodup_iff).mpr hnd
  have hge := sortDesc_chain_ge L
  haveI : IsTrans ℕ (fun x y : ℕ => y ≤ x) :=
    ⟨fun a b c h1 h2 => le_trans h2 h1⟩
  have hp := List.chain'_iff_pairwise.mp hge
  have hpair : (sortDesc L).Pairwise (fun x y => y ≤ x ∧ x ≠ y) :=
    hp.and hnds
  exact (hpair.imp (fun hxy => lt_of_le_of_ne hxy.1 (Ne.symm hxy.2))).chain'

/-- One column's reduction finishes, with its head plus two as a fuel
budget, and preserves the termination invariants. -/
theorem reduceColumn_some (SE : List EdgeInfo) (ST : List TriSortKey) :
    ∀ (fuel : ℕ) (st : H1State) (k : ℕ),
    StrictCols st.cols → OwnerPivot st.owner st.cols → OwnerBound st.owner k →
    RowsBound st.cols SE.length →
    (∀ p ∈ (st.cols.getD k []).head?, p + 2 ≤ fuel) → 1 ≤ fuel →
    ∃ st', reduceColumn SE ST fuel st k = some st' ∧
      StrictCols st'.cols ∧ OwnerPivot st'.owner st'.cols ∧
      OwnerBound st'.owner (k + 1) ∧ RowsBound st'.cols SE.length := by
  intro fuel
  induction fuel with
  | zero => intro st k _ _ _ _ _ h1; omega
  | succ f ih =>
    intro st k hsc hop hob hrb hhead _
    rcases hcol : st.cols.getD k [] with _ | ⟨pivot, rest⟩
    · exact ⟨st, reduceColumn_succ_empty SE ST f st k hcol, hsc, hop,
        fun r q hq => Nat.lt_succ_of_lt (hob r q hq), hrb⟩
    · rcases hown : st.owner.getD pivot none with _ | q
      · refine ⟨_, reduceColumn_succ_unowned SE ST f st k pivot rest hcol hown,
          hsc, ?_, ?_, hrb⟩
        · intro r q hq
          dsimp only at hq ⊢
          rw [getD_set] at hq
          split at hq
          case isTrue h' =>
            cases hq
            rw [show r = pivot from h'.1.symm, hcol]
            rfl
          case isFalse => exact hop r q hq
        · intro r q hq
          dsimp only at hq
          rw [getD_set] at hq
          split at hq
          · cases hq; omega
          · exact Nat.lt_succ_of_lt (hob r q hq)
      · have hqk : q < k := hob pivot q hown
        have hqhead := hop pivot q hown
        rcases hq2 : st.cols.getD q [] with _ | ⟨p2, rest2⟩
        · rw [hq2] at hqhead; cases hqhead
        · rw [hq2] at hqhead
          have hp2 : pivot = p2 := (by simpa using hqhead : p2 = pivot).symm
          subst hp2
          have hchk : (pivot :: rest).Chain' (fun x y => y < x) := hcol ▸ hsc k
          have hchq : (pivot :: rest2).Chain' (fun x y => y < x) := hq2 ▸ hsc q
          have hmerge : xorMerge (pivot :: rest) (st.cols.getD q []) =
              xorMerge rest rest2 := by
            rw [hq2, xorMerge_cons_cons, if_neg (lt_irrefl pivot),
              if_neg (lt_irrefl pivot)]
          have hmem_lt : ∀ x ∈ xorMerge rest rest2, x < pivot := by
            intro x hx
            rcases xorMerge_mem _ _ x hx with h' | h'
            · exact chain_gt_head pivot rest hchk x h'
            · exact chain_gt_head pivot rest2 hchq x h'
          have hpf : pivot + 2 ≤ f + 1 := hhead pivot (by rw [hcol]; rfl)
          have hsc1 : StrictCols (st.cols.set k
              (xorMerge (pivot :: rest) (st.cols.getD q []))) := by
            intro c
            rw [getD_set]
            split
            · rw [hmerge]
              exact xorMerge_chain_gt rest rest2
                (List.chain'_cons'.mp hchk).2 (List.chain'_cons'.mp hchq).2
            · exact hsc c
          have hop1 : OwnerPivot st.owner (st.cols.set k
              (xorMerge (pivot :: rest) (st.cols.getD q []))) := by
            intro r q' hq'
            rw [getD_set]
            rw [if_neg (by
              intro hc
              exact absurd hc.1 (by have := hob r q' hq'; omega))]
            exact hop r q' hq'
          have hrb1 : RowsBound (st.cols.set k
              (xorMerge (pivot :: rest) (st.cols.getD q []))) SE.length := by
            intro c r hr
            rw [getD_set] at hr
            split at hr
            · rw [hmerge] at hr
              rcases xorMerge_mem _ _ r hr with h' | h'
              · exact hrb k r (by rw [hcol]; exact List.mem_cons_of_mem _ h')
              · exact hrb q r (by rw [hq2]; exact List.mem_cons_of_mem _ h')
            · exact hrb c r hr
          have hhead1 : ∀ p ∈ ((st.cols.set k
              (xorMerge (pivot :: rest) (st.cols.getD q []))).getD k []).head?,
              p + 2 ≤ f := by
            intro p hp
            rw [getD_set] at hp
            rcases em (k = k ∧ k < st.cols.length) with hkk | hkk
            · rw [if_pos hkk, hmerge] at hp
              have := hmem_lt p (List.mem_of_mem_head? hp)
              omega
            · exfalso
              have hk_ge : st.cols.length ≤ k := by
                rcases not_and_or.mp hkk with h' | h'
                · exact absurd rfl h'
                · omega
              rw [List.getD_eq_default _ _ hk_ge] at hcol
              simp at hcol
          obtain ⟨st', hred, hinv⟩ := ih
            { st with cols := (st.cols.set k
              (xorMerge (pivot :: rest) (st.cols.getD q []))) } k
            hsc1 hop1 hob hrb1 hhead1 (by omega)
          exact ⟨st', by
            rw [reduceColumn_succ_owned SE ST f st k pivot q rest hcol hown]
            exact hred, hinv⟩

/-- The full sweep finishes with fuel `m + 2` per column. -/
theorem reduceSweep_some (SE : List EdgeInfo) (ST : List TriSortKey) :
    ∀ (ks : List ℕ) (fuel : ℕ) (st : H1State) (b : ℕ),
    (∀ k ∈ ks, b ≤ k) → ks.Pairwise (· < ·) →
    StrictCols st.cols → OwnerPivot st.owner st.cols → OwnerBound st.owner b →
    RowsBound st.cols SE.length → SE.length + 2 ≤ fuel →
    ∃ st', reduceSweep SE ST fuel ks st = some st' := by
  intro ks
  induction ks with
  | nil => intro fuel st b _ _ _ _ _ _ _; exact ⟨st, rfl⟩
  | cons k rest ih =>
    intro fuel st b hks hchain hsc hop hob hrb hfuel
    have hhead : ∀ p ∈ (st.cols.getD k []).head?, p + 2 ≤ fuel := by
      intro p hp
      have := hrb k p (List.mem_of_mem_head? hp)
      omega
    obtain ⟨st1, hred, hsc1, hop1, hob1, hrb1⟩ :=
      reduceColumn_some SE ST fuel st k hsc hop
        (fun r q hq => lt_of_lt_of_le (hob r q hq) (hks k (by simp)))
        hrb hhead (by omega)
    rw [List.pairwise_cons] at hchain
    obtain ⟨st', hst'⟩ := ih fuel st1 (k + 1)
      (fun k' hk' => hchain.1 k' hk') hchain.2 hsc1 hop1 hob1 hrb1 hfuel
    refine ⟨st', ?_⟩
    rw [reduceSweep_cons_some SE ST fuel k rest st st1 hred]
    exact hst'

/-- C9 (amended): on every input whose triangles have pairwise distinct
vertices (the data model guarantees `v0 < v1 < v2`), the column reduction
of `topo_gpu_persistence_h1` terminates: each XOR step strictly lowers the
pivot or empties the column, so the per-column budget `m + 2` suffices and
the call returns. -/
theorem C9_h1_terminates_on_distinct_vertices (edges : List EdgeInfo)
    (tris : List TriSortKey) (m t : ℤ)
    (hdist : ∀ tr ∈ tris, tr.v0 ≠ tr.v1 ∧ tr.v0 ≠ tr.v2 ∧ tr.v1 ≠ tr.v2) :
    (topo_gpu_persistence_h1 edges tris m t).isSome := by
  unfold topo_gpu_persistence_h1
  split
  · simp
  · rw [Option.isSome_map']
    unfold h1WithFuel h1Reduce
    set SE := sortEdgeInfos (edges.take m.toNat) with hSE
    set ST := sortTris (tris.take t.toNat) with hST
    have hmem : ∀ tr ∈ ST, tr ∈ tris := by
      intro tr htr
      exact List.take_subset _ _
        ((sortLeB_perm (fun a b => decide (tri_compare a b ≤ 0))
          (tris.take t.toNat)).subset htr)
    have hSC : StrictCols (ST.map (buildColumn SE)) := by
      intro c
      rcases lt_or_le c ST.length with hc | hc
      · rw [List.getD_eq_getElem _ _ (by simpa using hc), List.getElem_map]
        exact buildColumn_strict SE ST[c] (hdist ST[c] (hmem _ (List.getElem_mem hc)))
      · rw [List.getD_eq_default _ _ (by simpa using hc)]
        simp
    have hOP : OwnerPivot (List.replicate SE.length none)
        (ST.map (buildColumn SE)) := by
      intro r q hq
      rcases lt_or_le r (List.replicate SE.length (none : Option ℕ)).length with
        hrl | hrl
      · rw [List.getD_eq_getElem _ _ hrl] at hq
        simp at hq
      · rw [List.getD_eq_default _ _ hrl] at hq
        cases hq
    have hRB : RowsBound (ST.map (buildColumn SE)) SE.length := by
      intro c r hr
      rcases lt_or_le c ST.length with hc | hc
      · rw [List.getD_eq_getElem _ _ (by simpa using hc), List.getElem_map] at hr
        rcases buildColumn_mem SE ST[c] r hr with hfe | hfe | hfe <;>
          exact (find_edge_spec _ _ _ _ hfe).1
      · rw [List.getD_eq_default _ _ (by simpa using hc)] at hr
        cases hr
    have hlen : SE.length + 2 ≤ m.toNat + 2 := by
      have h1 : SE.length = (edges.take m.toNat).length :=
        (sortLeB_perm _ _).length_eq
      rw [h1, List.length_take]
      omega
    obtain ⟨st', hst'⟩ := reduceSweep_some SE ST (List.range ST.length)
      (m.toNat + 2)
      { cols := ST.map (buildColumn SE), owner := List.replicate SE.length none,
        pairs := [] } 0 (fun k _ => Nat.zero_le k)
      (List.pairwise_lt_range ST.length) hSC hOP
      (by intro r q hq
          rcases lt_or_le r (List.replicate SE.length (none : Option ℕ)).length
            with hrl | hrl
          · rw [List.getD_eq_getElem _ _ hrl] at hq; simp at hq
          · rw [List.getD_eq_default _ _ hrl] at hq; cases hq)
      hRB hlen
    rw [hst']
    simp

/-- Witness for the amended C9 on a valid filled triangle. -/
theorem C9_h1_terminates_witness :
    (∀ tr ∈ ([⟨3, 0, 1, 2⟩] : List TriSortKey),
      tr.v0 ≠ tr.v1 ∧ tr.v0 ≠ tr.v2 ∧ tr.v1 ≠ tr.v2) ∧
    (topo_gpu_persistence_h1 [⟨0, 1, 1⟩, ⟨0, 2, 2⟩, ⟨1, 2, 3⟩]
      [⟨3, 0, 1, 2⟩] 3 1).isSome :=
  ⟨by decide, C9_h1_terminates_on_distinct_vertices
    [⟨0, 1, 1⟩, ⟨0, 2, 2⟩, ⟨1, 2, 3⟩] [⟨3, 0, 1, 2⟩] 3 1 (by decide)⟩

/-! ## C3 (amended): the order, hence the output, is determined when
filtrations are distinct -/

/-- The spec's edge order is total. -/
theorem edgeLexLe_total (a b : EdgeSortKey) : edgeLexLe a b ∨ edgeLexLe b a := by
  unfold edgeLexLe
  rcases lt_trichotomy a.filt b.filt with h | h | h
  · exact Or.inl (Or.inl h)
  · rcases lt_trichotomy a.src b.src with h' | h' | h'
    · exact Or.inl (Or.inr ⟨h, Or.inl h'⟩)
    · rcases le_total a.dst b.dst with h'' | h''
      · exact Or.inl (Or.inr ⟨h, Or.inr ⟨h', h''⟩⟩)
      · exact Or.inr (Or.inr ⟨h.symm, Or.inr ⟨h'.symm, h''⟩⟩)
    · exact Or.inr (Or.inr ⟨h.symm, Or.inl h'⟩)
  · exact Or.inr (Or.inl h)

/-- The spec's triangle order is total. -/
theorem triLexLe_total (a b : TriSortKey) : triLexLe a b ∨ triLexLe b a := by
  unfold triLexLe
  rcases lt_trichotomy a.filt b.filt with h | h | h
  · exact Or.inl (Or.inl h)
  · rcases lt_trichotomy a.v0 b.v0 with h0 | h0 | h0
    · exact Or.inl (Or.inr ⟨h, Or.inl h0⟩)
    · rcases lt_trichotomy a.v1 b.v1 with h1 | h1 | h1
      · exact Or.inl (Or.inr ⟨h, Or.inr ⟨h0, Or.inl h1⟩⟩)
      · rcases le_total a.v2 b.v2 with h2 | h2
        · exact Or.inl (Or.inr ⟨h, Or.inr ⟨h0, Or.inr ⟨h1, h2⟩⟩⟩)
        · exact Or.inr (Or.inr ⟨h.symm, Or.inr ⟨h0.symm, Or.inr ⟨h1.symm, h2⟩⟩⟩)
      · exact Or.inr (Or.inr ⟨h.symm, Or.inr ⟨h0.symm, Or.inl h1⟩⟩)
    · exact Or.inr (Or.inr ⟨h.symm, Or.inl h0⟩)
  · exact Or.inr (Or.inl h)

/-- The spec's edge order refines the filtration order. -/
theorem edgeLexLe_filt_le (a b : EdgeSortKey) (h : edgeLexLe a b) :
    a.filt ≤ b.filt := by
  unfold edgeLexLe at h
  rcases h with h | ⟨h, _⟩
  · exact h.le
  · exact h.le

/-- The spec's triangle order refines the filtration order. -/
theorem triLexLe_filt_le (a b : TriSortKey) (h : triLexLe a b) :
    a.filt ≤ b.filt := by
  unfold triLexLe at h
  rcases h with h | ⟨h, _⟩
  · exact h.le
  · exact h.le

/-- Two sorted permutations of a list with pairwise distinct sort keys are
equal. -/
theorem sorted_key_perm_distinct_eq {α : Type} (key : α → ℚ) (l1 l2 : List α)
    (hp : l1.Perm l2)
    (h1 : l1.Chain' (fun a b => key a ≤ key b))
    (h2 : l2.Chain' (fun a b => key a ≤ key b))
    (hd : l1.Pairwise (fun a b => key a ≠ key b)) : l1 = l2 := by
  haveI : IsTrans α (fun a b => key a ≤ key b) :=
    ⟨fun a b c hab hbc => le_trans hab hbc⟩
  haveI : IsAntisymm α (fun a b => key a < key b) :=
    ⟨fun a b hab hba => absurd hba (not_lt.mpr hab.le)⟩
  have hp1 := List.chain'_iff_pairwise.mp h1
  have hp2 := List.chain'_iff_pairwise.mp h2
  have hd2 : l2.Pairwise (fun a b => key a ≠ key b) :=
    (hp.pairwise_iff (fun hab => Ne.symm hab)).mp hd
  have hs1 : l1.Pairwise (fun a b => key a < key b) :=
    (hp1.and hd).imp (fun h => lt_of_le_of_ne h.1 h.2)
  have hs2 : l2.Pairwise (fun a b => key a < key b) :=
    (hp2.and hd2).imp (fun h => lt_of_le_of_ne h.1 h.2)
  exact List.eq_of_perm_of_sorted hp hs1 hs2

/-- C3 (amended): the comparators order by filtration only, so whenever the
filtration values are pairwise distinct any comparator-sorted processing
order of the edges (respectively triangles) is unique and coincides with
the spec's fully specified lexicographic order; the H0 output is then
determined. With ties, the order among equal-filtration simplices is
whatever `qsort` produces. -/
theorem C3_order_determined_by_distinct_filts
    (edges l1 : List EdgeSortKey) (tris t1 : List TriSortKey)
    (vf : List ℚ) (n : ℕ)
    (hp1 : l1.Perm edges)
    (hs1 : l1.Chain' (fun a b => edge_compare a b ≤ 0))
    (hde : edges.Pairwise (fun a b => a.filt ≠ b.filt))
    (hq1 : t1.Perm tris)
    (ht1 : t1.Chain' (fun a b => tri_compare a b ≤ 0))
    (hdt : tris.Pairwise (fun a b => a.filt ≠ b.filt)) :
    l1 = sortLexEdges edges ∧ t1 = sortLexTris tris ∧
    h0Loop (UnionFind.init n vf) l1 =
      h0Loop (UnionFind.init n vf) (sortLexEdges edges) := by
  have he : l1 = sortLexEdges edges := by
    apply sorted_key_perm_distinct_eq (fun e : EdgeSortKey => e.filt)
    · exact hp1.trans (sortLeB_perm _ edges).symm
    · exact hs1.imp (fun {a b} h => (edge_compare_nonpos a b).mp h)
    · have hch := sortLeB_chain (fun a b => decide (edgeLexLe a b))
        (fun a b hab => by
          rw [decide_eq_true_eq]
          rw [decide_eq_false_iff_not] at hab
          rcases edgeLexLe_total a b with h' | h'
          · exact absurd h' hab
          · exact h') edges
      exact hch.imp (fun {a b} h => edgeLexLe_filt_le a b (by
        rw [decide_eq_true_eq] at h; exact h))
    · exact (hp1.pairwise_iff (fun hab => Ne.symm hab)).mpr hde
  have htr : t1 = sortLexTris tris := by
    apply sorted_key_perm_distinct_eq (fun tr : TriSortKey => tr.filt)
    · exact hq1.trans (sortLeB_perm _ tris).symm
    · exact ht1.imp (fun {a b} h => (tri_compare_nonpos a b).mp h)
    · have hch := sortLeB_chain (fun a b => decide (triLexLe a b))
        (fun a b hab => by
          rw [decide_eq_true_eq]
          rw [decide_eq_false_iff_not] at hab
          rcases triLexLe_total a b with h' | h'
          · exact absurd h' hab
          · exact h') tris
      exact hch.imp (fun {a b} h => triLexLe_filt_le a b (by
        rw [decide_eq_true_eq] at h; exact h))
    · exact (hq1.pairwise_iff (fun hab => Ne.symm hab)).mpr hdt
  exact ⟨he, htr, by rw [he]⟩

/-- Witness for the amended C3 on distinct filtrations. -/
theorem C3_order_determined_witness :
    (([⟨1, 0, 1⟩, ⟨2, 0, 2⟩] : List EdgeSortKey).Perm [⟨1, 0, 1⟩, ⟨2, 0, 2⟩]) ∧
    ([⟨1, 0, 1⟩, ⟨2, 0, 2⟩] : List EdgeSortKey) = sortLexEdges [⟨1, 0, 1⟩, ⟨2, 0, 2⟩] ∧
    ([⟨5, 0, 1, 2⟩] : List TriSortKey) = sortLexTris [⟨5, 0, 1, 2⟩] ∧
    h0Loop (UnionFind.init 3 [0, 0, 0]) [⟨1, 0, 1⟩, ⟨2, 0, 2⟩] =
      h0Loop (UnionFind.init 3 [0, 0, 0]) (sortLexEdges [⟨1, 0, 1⟩, ⟨2, 0, 2⟩]) := by
  have h := C3_order_determined_by_distinct_filts
    [⟨1, 0, 1⟩, ⟨2, 0, 2⟩] [⟨1, 0, 1⟩, ⟨2, 0, 2⟩] [⟨5, 0, 1, 2⟩] [⟨5, 0, 1, 2⟩]
    [0, 0, 0] 3 (by decide) (by exact .cons (by decide) .nil) (by decide)
    (by decide) (by exact .nil) (by decide)
  exact ⟨by decide, h.1, h.2.1, h.2.2⟩

/-! ## C4 (amended): union-find correctness and the pair count -/

/-- Splitting an iterated parent walk. -/
theorem iterP_add (p : List ℕ) (a b x : ℕ) :
    iterP p (a + b) x = iterP p b (iterP p a x) := by
  induction a generalizing x with
  | zero => rw [Nat.zero_add]; rfl
  | succ a ih =>
    rw [Nat.succ_add]
    exact ih (p.getD x x)

/-- Peeling the last step of an iterated parent walk. -/
theorem iterP_succ_right (p : List ℕ) (k x : ℕ) :
    iterP p (k + 1) x = p.getD (iterP p k x) (iterP p k x) := by
  rw [iterP_add p k 1 x]
  rfl

/-- A root is a fixed point of the walk. -/
theorem iterP_root (p : List ℕ) (r : ℕ) (h : isRoot p r) (k : ℕ) :
    iterP p k r = r := by
  induction k with
  | zero => rfl
  | succ k ih =>
    rw [iterP_succ_right, ih]
    exact h

/-- The root and the first-arrival time of a chain are unique. -/
theorem reachesIn_unique (p : List ℕ) (x r1 l1 r2 l2 : ℕ)
    (h1 : ReachesIn p x r1 l1) (h2 : ReachesIn p x r2 l2) :
    r1 = r2 ∧ l1 = l2 := by
  obtain ⟨hi1, hr1, hn1⟩ := h1
  obtain ⟨hi2, hr2, hn2⟩ := h2
  rcases lt_trichotomy l1 l2 with h | h | h
  · exact absurd (by rw [hi1]; exact hr1) (hn2 l1 h)
  · subst h
    rw [hi1] at hi2
    exact ⟨hi2, rfl⟩
  · exact absurd (by rw [hi2]; exact hr2) (hn1 l2 h)

/-- First-arrival times are below `n` when pointers stay in range. -/
theorem reachesIn_len_lt (p : List ℕ) (n x r ℓ : ℕ)
    (hrange : ∀ y < n, p.getD y y < n) (hx : x < n)
    (h : ReachesIn p x r ℓ) : ℓ < n := by
  obtain ⟨hit, hroot, hnr⟩ := h
  have hiter : ∀ i, iterP p i x < n := by
    intro i
    induction i with
    | zero => exact hx
    | succ i ih =>
      rw [iterP_succ_right]
      exact hrange _ ih
  have key : ∀ i j : ℕ, i < j → j ≤ ℓ → iterP p i x ≠ iterP p j x := by
    intro i j hij hjl heq
    have h2 : iterP p (i + (ℓ - j)) x = r := by
      rw [iterP_add, heq, ← iterP_add, show j + (ℓ - j) = ℓ by omega, hit]
    rcases Nat.eq_or_lt_of_le (show i + (ℓ - j) + (j - i) ≤ ℓ by omega) with _ | _
    · exact hnr (i + (ℓ - j)) (by omega) (by rw [h2]; exact hroot)
    · exact hnr (i + (ℓ - j)) (by omega) (by rw [h2]; exact hroot)
  have hinj : Function.Injective
      (fun i : Fin (ℓ + 1) => (⟨iterP p i x, hiter i⟩ : Fin n)) := by
    intro i j hij
    simp only [Fin.mk.injEq] at hij
    by_contra hne
    rcases lt_or_gt_of_ne (fun h => hne (Fin.ext h)) with h' | h'
    · exact key i j h' (by omega) hij
    · exact key j i h' (by omega) hij.symm
  have := Fintype.card_le_of_injective _ hinj
  simpa using this

/-- Walking to the root visits only connected vertices. -/
theorem conn_iterP (E : List EdgeSortKey) (uf : UnionFind)
    (hconn : UFConn E uf) (x : ℕ) (k : ℕ) :
    Conn E x (iterP uf.parent k x) := by
  induction k with
  | zero => exact Conn.refl x
  | succ k ih =>
    rw [iterP_succ_right]
    exact Conn.trans ih (hconn (iterP uf.parent k x))

/-- Connectivity only grows when edges are appended. -/
theorem conn_mono (E1 E2 : List EdgeSortKey) (hsub : ∀ e ∈ E1, e ∈ E2)
    (x y : ℕ) (h : Conn E1 x y) : Conn E2 x y := by
  induction h with
  | refl z => exact Conn.refl z
  | symm _ ih => exact Conn.symm ih
  | trans _ _ ih1 ih2 => exact Conn.trans ih1 ih2
  | edge he => exact Conn.edge (hsub _ he)

/-- A vertex with a pointer two-cycle never reaches a root. -/
theorem not_rooted_two_cycle (p : List ℕ) (z : ℕ) (hz : p.getD z z ≠ z)
    (hzz : p.getD (p.getD z z) (p.getD z z) = z) : ¬ Rooted p z := by
  rintro ⟨r, ℓ, hit, hroot, _⟩
  have halt : ∀ i, iterP p i z = z ∨ iterP p i z = p.getD z z := by
    intro i
    induction i with
    | zero => exact Or.inl rfl
    | succ i ih =>
      rcases ih with h | h
      · right; rw [iterP_succ_right, h]
      · left; rw [iterP_succ_right, h, hzz]
  rcases halt ℓ with h | h
  · rw [h] at hit
    subst hit
    exact hz hroot
  · rw [h] at hit
    subst hit
    exact hz (by rw [isRoot] at hroot; rw [hzz] at hroot; exact hroot.symm)

/-- A set-to-grandparent update is a pointwise halving. -/
theorem halved_set (p : List ℕ) (x : ℕ) :
    Halved p (p.set x (p.getD (p.getD x x) (p.getD x x))) := by
  refine ⟨List.length_set p x _, ?_⟩
  intro z
  rw [getD_set]
  by_cases hC : x = z ∧ x < p.length
  · rw [if_pos hC]
    right
    rw [hC.1]
  · rw [if_neg hC]
    left
    rfl

/-- Halving preserves the root set. -/
theorem halved_isRoot_iff (p p' : List ℕ) (hH : Halved p p')
    (hrooted : ∀ y, Rooted p y) (z : ℕ) : isRoot p' z ↔ isRoot p z := by
  rcases hH.2 z with h | h
  · rw [isRoot, isRoot, h]
  · constructor
    · intro h'
      rw [isRoot] at h' ⊢
      rw [h] at h'
      by_contra hne
      exact not_rooted_two_cycle p z hne h' (hrooted z)
    · intro h'
      rw [isRoot] at h' ⊢
      rw [h, h', h']

/-- Dropping the first step of a chain. -/
theorem reachesIn_tail (p : List ℕ) (y r ℓ : ℕ)
    (h : ReachesIn p y r ℓ) (hpos : 0 < ℓ) :
    ReachesIn p (p.getD y y) r (ℓ - 1) := by
  obtain ⟨hit, hroot, hnr⟩ := h
  refine ⟨?_, hroot, ?_⟩
  · have hstep : iterP p ℓ y = iterP p (ℓ - 1) (p.getD y y) := by
      have h2 : iterP p (1 + (ℓ - 1)) y = iterP p (ℓ - 1) (iterP p 1 y) :=
        iterP_add p 1 (ℓ - 1) y
      rw [show (1 : ℕ) + (ℓ - 1) = ℓ by omega] at h2
      exact h2
    rw [← hstep, hit]
  · intro i hi
    have hstep : iterP p (i + 1) y = iterP p i (p.getD y y) := by
      have h2 : iterP p (1 + i) y = iterP p i (iterP p 1 y) := iterP_add p 1 i y
      rw [show (1 : ℕ) + i = i + 1 by omega] at h2
      exact h2
    rw [← hstep]
    exact hnr (i + 1) (by omega)

/-- Halving keeps every chain's root and does not lengthen the chain. -/
theorem halved_reaches (p p' : List ℕ) (hH : Halved p p')
    (hrooted : ∀ y, Rooted p y) :
    ∀ ℓ y r, ReachesIn p y r ℓ → ∃ ℓ' ≤ ℓ, ReachesIn p' y r ℓ' := by
  intro ℓ
  induction ℓ using Nat.strong_induction_on with
  | _ ℓ ih =>
    intro y r h
    have hit := h.1
    have hroot := h.2.1
    have hnr := h.2.2
    rcases Nat.eq_zero_or_pos ℓ with h0 | hpos
    · subst h0
      have hyr : y = r := hit
      subst hyr
      refine ⟨0, le_rfl, rfl, ?_, by intro i hi; omega⟩
      exact (halved_isRoot_iff p p' hH hrooted y).mpr hroot
    · have hy_nr : ¬ isRoot p y := hnr 0 hpos
      have htail := reachesIn_tail p y r ℓ h hpos
      rcases hH.2 y with hcase | hcase
      · obtain ⟨ℓ'', hle, hri⟩ := ih (ℓ - 1) (by omega) (p.getD y y) r htail
        refine ⟨ℓ'' + 1, by omega, ?_, hri.2.1, ?_⟩
        · show iterP p' ℓ'' (p'.getD y y) = r
          rw [hcase]
          exact hri.1
        · intro i hi
          cases i with
          | zero =>
            show ¬ isRoot p' y
            rw [isRoot, hcase]
            exact fun he => hy_nr he
          | succ i =>
            show ¬ isRoot p' (iterP p' i (p'.getD y y))
            rw [hcase]
            exact hri.2.2 i (by omega)
      · rcases Nat.eq_or_lt_of_le (show 1 ≤ ℓ from hpos) with h1 | h1
        · have hpy : p.getD y y = r := by
            have h2 := htail.1
            rw [show ℓ - 1 = 0 by omega] at h2
            exact h2
          have hp'y : p'.getD y y = r := by
            rw [hcase, hpy]
            exact hroot
          refine ⟨1, by omega, ?_, ?_, ?_⟩
          · show iterP p' 0 (p'.getD y y) = r
            exact hp'y
          · exact (halved_isRoot_iff p p' hH hrooted r).mpr hroot
          · intro i hi
            have hi0 : i = 0 := by omega
            subst hi0
            intro he
            rw [isRoot] at he
            show False
            rw [show iterP p' 0 y = y from rfl] at he
            rw [hp'y] at he
            exact hy_nr (he ▸ hroot)
        · have htail2 := reachesIn_tail p (p.getD y y) r (ℓ - 1) htail (by omega)
          rw [show ℓ - 1 - 1 = ℓ - 2 by omega] at htail2
          obtain ⟨ℓ'', hle, hri⟩ := ih (ℓ - 2) (by omega) _ r htail2
          refine ⟨ℓ'' + 1, by omega, ?_, hri.2.1, ?_⟩
          · show iterP p' ℓ'' (p'.getD y y) = r
            rw [hcase]
            exact hri.1
          · intro i hi
            cases i with
            | zero =>
              show ¬ isRoot p' y
              rw [isRoot, hcase]
              intro he
              exact not_rooted_two_cycle p y (fun h' => hy_nr h') he (hrooted y)
            | succ i =>
              show ¬ isRoot p' (iterP p' i (p'.getD y y))
              rw [hcase]
              exact hri.2.2 i (by omega)

/-- Preservation is reflexive. -/
theorem UFPres_refl (uf : UnionFind) : UFPres uf uf :=
  ⟨rfl, rfl, rfl, fun _ => Iff.rfl,
    fun y r ℓ h => ⟨ℓ, le_rfl, h⟩, fun _ h => h, fun _ h => h⟩

/-- Preservation composes. -/
theorem UFPres_trans (uf1 uf2 uf3 : UnionFind)
    (h12 : UFPres uf1 uf2) (h23 : UFPres uf2 uf3) : UFPres uf1 uf3 := by
  obtain ⟨a12, b12, c12, d12, e12, f12, g12⟩ := h12
  obtain ⟨a23, b23, c23, d23, e23, f23, g23⟩ := h23
  refine ⟨a23.trans a12, b23.trans b12, c23.trans c12,
    fun z => (d23 z).trans (d12 z), ?_, fun Es h => f23 Es (f12 Es h),
    fun m h => g23 m (g12 m h)⟩
  intro y r ℓ h
  obtain ⟨ℓ2, hle2, h2⟩ := e12 y r ℓ h
  obtain ⟨ℓ3, hle3, h3⟩ := e23 y r ℓ2 h2
  exact ⟨ℓ3, le_trans hle3 hle2, h3⟩

/-- A pointwise halving with untouched ranks and births is a
preservation. -/
theorem UFPres_of_halved (uf uf' : UnionFind)
    (hH : Halved uf.parent uf'.parent)
    (hrooted : ∀ y, Rooted uf.parent y)
    (hr : uf'.rank = uf.rank) (hb : uf'.birth = uf.birth) :
    UFPres uf uf' := by
  refine ⟨hr, hb, hH.1, halved_isRoot_iff _ _ hH hrooted, ?_, ?_, ?_⟩
  · intro y r ℓ h
    exact halved_reaches _ _ hH hrooted ℓ y r h
  · intro Es h z
    rcases hH.2 z with hc | hc
    · rw [hc]
      exact h z
    · rw [hc]
      exact Conn.trans (h z) (h (uf.parent.getD z z))
  · intro m hm z hz
    rcases hH.2 z with hc | hc
    · rw [hc]
      exact hm z hz
    · rw [hc]
      exact hm _ (hm z hz)

/-- Preservation keeps the forest invariant. -/
theorem UFPres_rooted (uf uf' : UnionFind) (hpres : UFPres uf uf')
    (hrooted : ∀ y, Rooted uf.parent y) : ∀ y, Rooted uf'.parent y := by
  intro y
  obtain ⟨r, ℓ, h⟩ := hrooted y
  obtain ⟨ℓ', _, h'⟩ := hpres.2.2.2.2.1 y r ℓ h
  exact ⟨r, ℓ', h'⟩

/-- Preservation keeps the structural invariant. -/
theorem UFPres_inv (n : ℕ) (uf uf' : UnionFind) (hpres : UFPres uf uf')
    (hinv : UFInv n uf) : UFInv n uf' := by
  obtain ⟨hlen, hrange, hrooted⟩ := hinv
  exact ⟨hpres.2.2.1.trans hlen, hpres.2.2.2.2.2.2 n (hlen ▸ hrange) |>
    (fun h => h) |> (fun h => h), UFPres_rooted uf uf' hpres hrooted⟩

/-- Preservation keeps the completeness invariant. -/
theorem UFPres_compat (uf uf' : UnionFind) (E : List EdgeSortKey)
    (hrooted : ∀ y, Rooted uf.parent y) (hpres : UFPres uf uf')
    (hcompat : UFCompat E uf) : UFCompat E uf' := by
  intro e he r1 ℓ1 r2 ℓ2 h1 h2
  obtain ⟨ra, ℓa, hra⟩ := hrooted e.src
  obtain ⟨rb, ℓb, hrb⟩ := hrooted e.dst
  obtain ⟨ℓa', _, hra'⟩ := hpres.2.2.2.2.1 e.src ra ℓa hra
  obtain ⟨ℓb', _, hrb'⟩ := hpres.2.2.2.2.1 e.dst rb ℓb hrb
  have e1 : r1 = ra := (reachesIn_unique _ _ _ _ _ _ h1 hra').1
  have e2 : r2 = rb := (reachesIn_unique _ _ _ _ _ _ h2 hrb').1
  rw [e1, e2]
  exact hcompat e he ra ℓa rb ℓb hra hrb

/-- Unfolding: `findAux` at a root. -/
theorem findAux_succ_root (fuel : ℕ) (uf : UnionFind) (x : ℕ)
    (hx : uf.parent.getD x x = x) :
    UnionFind.findAux (fuel + 1) uf x = (uf, x) := by
  conv_lhs => rw [UnionFind.findAux]
  rw [List.getD_eq_getElem?_getD] at hx
  simp [hx]

/-- Unfolding: one halving step of `findAux`. -/
theorem findAux_succ_step (fuel : ℕ) (uf : UnionFind) (x : ℕ)
    (hx : uf.parent.getD x x ≠ x) :
    UnionFind.findAux (fuel + 1) uf x =
      UnionFind.findAux fuel
        { uf with parent := (uf.parent.set x
          (uf.parent.getD (uf.parent.getD x x) (uf.parent.getD x x))) }
        (uf.parent.getD (uf.parent.getD x x) (uf.parent.getD x x)) := by
  conv_lhs => rw [UnionFind.findAux]
  rw [List.getD_eq_getElem?_getD] at hx
  simp [hx]

/-- Specification of the fueled `find` loop: with enough fuel it returns
the chain's root and the state change is a preservation. -/
theorem findAux_spec :
    ∀ (fuel : ℕ) (uf : UnionFind) (x r ℓ : ℕ),
    (∀ y, Rooted uf.parent y) →
    ReachesIn uf.parent x r ℓ → ℓ < fuel →
    (UnionFind.findAux fuel uf x).2 = r ∧
      UFPres uf (UnionFind.findAux fuel uf x).1 := by
  intro fuel
  induction fuel with
  | zero => intro uf x r ℓ _ _ h; omega
  | succ f ih =>
    intro uf x r ℓ hrooted hreach hfuel
    by_cases hx : uf.parent.getD x x = x
    · rw [findAux_succ_root f uf x hx]
      have hx0 : ReachesIn uf.parent x x 0 := ⟨rfl, hx, by intro i hi; omega⟩
      exact ⟨(reachesIn_unique _ _ _ _ _ _ hx0 hreach).1, UFPres_refl uf⟩
    · rw [findAux_succ_step f uf x hx]
      set g := uf.parent.getD (uf.parent.getD x x) (uf.parent.getD x x) with hg
      set uf1 : UnionFind := { uf with parent := uf.parent.set x g } with huf1
      have hH : Halved uf.parent uf1.parent := halved_set uf.parent x
      have hpres1 : UFPres uf uf1 := UFPres_of_halved uf uf1 hH hrooted rfl rfl
      have hrooted1 := UFPres_rooted uf uf1 hpres1 hrooted
      have hlpos : 0 < ℓ := by
        by_contra h0
        push_neg at h0
        interval_cases ℓ
        exact hx (by rw [show x = r from hreach.1]; exact hreach.2.1)
      have hgchain : ∃ ℓg ≤ ℓ - 1, ReachesIn uf.parent g r ℓg := by
        have htail := reachesIn_tail uf.parent x r ℓ hreach hlpos
        rcases Nat.eq_or_lt_of_le (show 1 ≤ ℓ from hlpos) with h1 | h1
        · have hpx : uf.parent.getD x x = r := by
            have h2 := htail.1
            rw [show ℓ - 1 = 0 by omega] at h2
            exact h2
          refine ⟨0, by omega, ?_, htail.2.1, by intro i hi; omega⟩
          show g = r
          rw [hg, hpx]
          exact htail.2.1
        · have htail2 := reachesIn_tail uf.parent (uf.parent.getD x x) r (ℓ - 1)
            htail (by omega)
          exact ⟨ℓ - 1 - 1, by omega, htail2⟩
      obtain ⟨ℓg, hℓg, hgr⟩ := hgchain
      obtain ⟨ℓg', hℓg', hgr'⟩ := hpres1.2.2.2.2.1 g r ℓg hgr
      obtain ⟨hres, hpres2⟩ := ih uf1 g r ℓg' hrooted1 hgr' (by omega)
      exact ⟨hres, UFPres_trans uf uf1 _ hpres1 hpres2⟩

/-- Specification of `UnionFind::find`: under the structural invariant the
default fuel `n` suffices. -/
theorem find_spec (n : ℕ) (uf : UnionFind) (x r ℓ : ℕ)
    (hinv : UFInv n uf) (hx : x < n)
    (hreach : ReachesIn uf.parent x r ℓ) :
    (uf.find x).2 = r ∧ UFPres uf (uf.find x).1 := by
  obtain ⟨hlen, hrange, hrooted⟩ := hinv
  have hℓ : ℓ < n := reachesIn_len_lt uf.parent n x r ℓ hrange hx hreach
  exact findAux_spec uf.parent.length uf x r ℓ hrooted hreach (by omega)

/-- The root of a chain from an in-range vertex is in range. -/
theorem reachesIn_root_lt (p : List ℕ) (n x r ℓ : ℕ)
    (hrange : ∀ y < n, p.getD y y < n) (hx : x < n)
    (h : ReachesIn p x r ℓ) : r < n := by
  have hiter : ∀ i, iterP p i x < n := by
    intro i
    induction i with
    | zero => exact hx
    | succ i ih =>
      rw [iterP_succ_right]
      exact hrange _ ih
  rw [← h.1]
  exact hiter ℓ

/-- Root counting only depends on the root predicate. -/
theorem rootsCount_congr (p p' : List ℕ) (n : ℕ)
    (h : ∀ z, isRoot p' z ↔ isRoot p z) :
    rootsCount p' n = rootsCount p n := by
  unfold rootsCount
  congr 1
  apply List.filter_congr
  intro x _
  exact decide_eq_decide.mpr (h x)

/-- Counting a filtered list after turning exactly one hit off. -/
theorem filter_length_update (l : List ℕ) (f g : ℕ → Bool) (t : ℕ)
    (hnd : l.Nodup) (ht : t ∈ l) (hft : f t = true) (hgt : g t = false)
    (hcong : ∀ x ∈ l, x ≠ t → g x = f x) :
    (l.filter g).length + 1 = (l.filter f).length := by
  induction l with
  | nil => cases ht
  | cons a as ih =>
    rw [List.nodup_cons] at hnd
    rcases List.mem_cons.mp ht with h | h
    · subst h
      rw [List.filter_cons, List.filter_cons, hft, hgt]
      simp only [if_true, if_false]
      have : as.filter g = as.filter f := by
        apply List.filter_congr
        intro x hx
        exact hcong x (List.mem_cons_of_mem _ hx)
          (fun he => hnd.1 (he ▸ hx))
      rw [this]
      simp
    · have hat : a ≠ t := fun he => hnd.1 (he ▸ h)
      rw [List.filter_cons, List.filter_cons,
        hcong a (List.mem_cons_self a as) hat]
      have hrec := ih hnd.2 h
        (fun x hx hxt => hcong x (List.mem_cons_of_mem _ hx) hxt)
      split
      · simp only [List.length_cons]
        omega
      · exact hrec

/-- Linking a root under another removes exactly one root. -/
theorem rootsCount_set_root (p : List ℕ) (n ra rb : ℕ)
    (hrb : rb < n) (hlen : p.length = n) (hrbroot : isRoot p rb)
    (hne : ra ≠ rb) :
    rootsCount (p.set rb ra) n + 1 = rootsCount p n := by
  unfold rootsCount
  apply filter_length_update (List.range n) _ _ rb (List.nodup_range n)
    (List.mem_range.mpr hrb)
  · exact decide_eq_true hrbroot
  · apply decide_eq_false
    rw [isRoot, getD_set, if_pos ⟨rfl, by omega⟩]
    exact hne
  · intro x _ hx
    apply decide_eq_decide.mpr
    rw [isRoot, isRoot, getD_set, if_neg (by tauto)]

/-- Effect of linking root `rb` under root `ra` on predicates and
chains. -/
theorem link_spec (n : ℕ) (p : List ℕ) (ra rb : ℕ)
    (hra : ra < n) (hrb : rb < n) (hne : ra ≠ rb)
    (hroot_a : isRoot p ra) (hroot_b : isRoot p rb)
    (hlen : p.length = n) (hrange : ∀ z < n, p.getD z z < n) :
    (∀ z, isRoot (p.set rb ra) z ↔ (isRoot p z ∧ z ≠ rb)) ∧
    (∀ y r ℓ, ReachesIn p y r ℓ →
      (r ≠ rb → ReachesIn (p.set rb ra) y r ℓ) ∧
      (r = rb → ReachesIn (p.set rb ra) y ra (ℓ + 1))) ∧
    (p.set rb ra).length = n ∧ (∀ z < n, (p.set rb ra).getD z z < n) := by
  have hget : ∀ z, z ≠ rb → (p.set rb ra).getD z z = p.getD z z := by
    intro z hz
    rw [getD_set, if_neg (by tauto)]
  have hgetb : (p.set rb ra).getD rb rb = ra := by
    rw [getD_set, if_pos ⟨rfl, by omega⟩]
  have hroots : ∀ z, isRoot (p.set rb ra) z ↔ (isRoot p z ∧ z ≠ rb) := by
    intro z
    rcases em (z = rb) with hz | hz
    · subst hz
      rw [isRoot, hgetb]
      constructor
      · intro h'; exact absurd h' hne
      · intro h'; exact absurd rfl h'.2
    · rw [isRoot, hget z hz, ← isRoot]
      exact ⟨fun h' => ⟨h', hz⟩, fun h' => h'.1⟩
  refine ⟨hroots, ?_, by rw [List.length_set]; exact hlen, ?_⟩
  · intro y r ℓ h
    obtain ⟨hit, hroot, hnr⟩ := h
    have hnot_rb : ∀ i < ℓ, iterP p i y ≠ rb := by
      intro i hi he
      exact hnr i hi (he ▸ hroot_b)
    have hiter_eq : ∀ i ≤ ℓ, iterP (p.set rb ra) i y = iterP p i y := by
      intro i hi
      induction i with
      | zero => rfl
      | succ i ih =>
        rw [iterP_succ_right, iterP_succ_right, ih (by omega),
          hget _ (hnot_rb i (by omega))]
    constructor
    · intro hrrb
      refine ⟨by rw [hiter_eq ℓ le_rfl]; exact hit, ?_, ?_⟩
      · exact (hroots r).mpr ⟨hroot, hrrb⟩
      · intro i hi
        rw [hiter_eq i (by omega)]
        intro he
        exact hnr i hi ((hroots _).mp he).1
    · intro hrrb
      subst hrrb
      refine ⟨?_, ?_, ?_⟩
      · rw [iterP_succ_right, hiter_eq ℓ le_rfl, hit, hgetb]
      · exact (hroots ra).mpr ⟨hroot_a, hne⟩
      · intro i hi
        rcases Nat.lt_or_ge i ℓ with hi' | hi'
        · rw [hiter_eq i (by omega)]
          intro he
          exact hnr i hi' ((hroots _).mp he).1
        · have hieq : i = ℓ := by omega
          subst hieq
          rw [hiter_eq i le_rfl, hit]
          intro he
          exact ((hroots r).mp he).2 rfl
  · intro z hz
    rcases em (z = rb) with hzb | hzb
    · subst hzb
      rw [hgetb]
      exact hra
    · rw [hget z hzb]
      exact hrange z hz

/-- `unite` with equal roots returns the post-find state and no pair. -/
theorem unite_none_shape (uf : UnionFind) (a b : ℕ) (f : ℚ)
    (h : (uf.find a).2 = ((uf.find a).1.find b).2) :
    uf.unite a b f = (((uf.find a).1.find b).1, none) := by
  simp [UnionFind.unite, h]

/-- `unite` with distinct roots links one root under the other (in some
order decided by the birth and rank swaps) and returns a pair. -/
theorem unite_merge_shape (uf : UnionFind) (a b : ℕ) (f : ℚ)
    (h : ¬ (uf.find a).2 = ((uf.find a).1.find b).2) :
    ∃ x y : ℕ,
      ((x = (uf.find a).2 ∧ y = ((uf.find a).1.find b).2) ∨
        (x = ((uf.find a).1.find b).2 ∧ y = (uf.find a).2)) ∧
      (uf.unite a b f).1.parent =
        ((uf.find a).1.find b).1.parent.set y x ∧
      (uf.unite a b f).2.isSome = true := by
  by_cases hbir : ((uf.find a).1.find b).1.birth.getD (uf.find a).2 0 <
      ((uf.find a).1.find b).1.birth.getD ((uf.find a).1.find b).2 0
  · by_cases hrank : ((uf.find a).1.find b).1.rank.getD (uf.find a).2 0 <
        ((uf.find a).1.find b).1.rank.getD ((uf.find a).1.find b).2 0
    · refine ⟨((uf.find a).1.find b).2, (uf.find a).2,
        Or.inr ⟨rfl, rfl⟩, ?_, ?_⟩ <;>
      · simp only [UnionFind.unite, if_neg h, if_pos hbir, if_pos hrank]
        first
        | rfl
        | split <;> rfl
    · refine ⟨(uf.find a).2, ((uf.find a).1.find b).2,
        Or.inl ⟨rfl, rfl⟩, ?_, ?_⟩ <;>
      · simp only [UnionFind.unite, if_neg h, if_pos hbir, if_neg hrank]
        first
        | rfl
        | split <;> rfl
  · by_cases hrank : ((uf.find a).1.find b).1.rank.getD
        ((uf.find a).1.find b).2 0 <
        ((uf.find a).1.find b).1.rank.getD (uf.find a).2 0
    · refine ⟨(uf.find a).2, ((uf.find a).1.find b).2,
        Or.inl ⟨rfl, rfl⟩, ?_, ?_⟩ <;>
      · simp only [UnionFind.unite, if_neg h, if_neg hbir, if_pos hrank]
        first
        | rfl
        | split <;> rfl
    · refine ⟨((uf.find a).1.find b).2, (uf.find a).2,
        Or.inr ⟨rfl, rfl⟩, ?_, ?_⟩ <;>
      · simp only [UnionFind.unite, if_neg h, if_neg hbir, if_neg hrank]
        first
        | rfl
        | split <;> rfl

/-- Core of a merging `unite` step at the parent-array level: linking one
of the two roots under the other preserves the structural invariant,
extends soundness and completeness to the new edge, and removes exactly
one root. -/
theorem unite_link_core (n : ℕ) (uf2 : UnionFind) (E : List EdgeSortKey)
    (e : EdgeSortKey) (ra rb ra2 rb2 ℓa2 ℓb2 : ℕ) (p3 : List ℕ)
    (hp3 : p3 = uf2.parent.set rb2 ra2)
    (hswap : (ra2 = ra ∧ rb2 = rb) ∨ (ra2 = rb ∧ rb2 = ra))
    (hinv2 : UFInv n uf2) (hconn2 : UFConn E uf2)
    (hcompat2 : UFCompat E uf2)
    (hra_lt : ra < n) (hrb_lt : rb < n) (hne : ra ≠ rb)
    (hra_root : isRoot uf2.parent ra) (hrb_root : isRoot uf2.parent rb)
    (hconn_ra_rb : Conn (E ++ [e]) ra rb)
    (hsrc : ReachesIn uf2.parent e.src ra ℓa2)
    (hdst : ReachesIn uf2.parent e.dst rb ℓb2) :
    (p3.length = n ∧ (∀ z < n, p3.getD z z < n) ∧ (∀ z, Rooted p3 z)) ∧
    (∀ z, Conn (E ++ [e]) z (p3.getD z z)) ∧
    (∀ eP ∈ E ++ [e], ∀ r1 ℓ1 r2 ℓ2, ReachesIn p3 eP.src r1 ℓ1 →
      ReachesIn p3 eP.dst r2 ℓ2 → r1 = r2) ∧
    rootsCount p3 n + 1 = rootsCount uf2.parent n := by
  have hra2_lt : ra2 < n := by rcases hswap with ⟨h1, _⟩ | ⟨h1, _⟩ <;>
    rw [h1] <;> assumption
  have hrb2_lt : rb2 < n := by rcases hswap with ⟨_, h2⟩ | ⟨_, h2⟩ <;>
    rw [h2] <;> assumption
  have hne2 : ra2 ≠ rb2 := by
    rcases hswap with ⟨h1, h2⟩ | ⟨h1, h2⟩ <;> rw [h1, h2]
    · exact hne
    · exact fun h' => hne h'.symm
  have hra2_root : isRoot uf2.parent ra2 := by
    rcases hswap with ⟨h1, _⟩ | ⟨h1, _⟩ <;> rw [h1] <;> assumption
  have hrb2_root : isRoot uf2.parent rb2 := by
    rcases hswap with ⟨_, h2⟩ | ⟨_, h2⟩ <;> rw [h2] <;> assumption
  obtain ⟨hlen2, hrange2, hrooted2⟩ := hinv2
  obtain ⟨hroots3, hchains3, hlen3, hrange3⟩ :=
    link_spec n uf2.parent ra2 rb2 hra2_lt hrb2_lt hne2 hra2_root
      hrb2_root hlen2 hrange2
  rw [← hp3] at hroots3 hchains3 hlen3 hrange3
  have hmap : ∀ y r ℓ r' ℓ', ReachesIn uf2.parent y r ℓ →
      ReachesIn p3 y r' ℓ' → r' = (if r = rb2 then ra2 else r) := by
    intro y r ℓ r' ℓ' hch hch'
    rcases em (r = rb2) with hr | hr
    · rw [if_pos hr]
      exact (reachesIn_unique p3 y r' ℓ' ra2 (ℓ + 1) hch'
        ((hchains3 y r ℓ hch).2 hr)).1
    · rw [if_neg hr]
      exact (reachesIn_unique p3 y r' ℓ' r ℓ hch'
        ((hchains3 y r ℓ hch).1 hr)).1
  have hsub : ∀ eP ∈ E, eP ∈ E ++ [e] := fun eP h =>
    List.mem_append_left _ h
  refine ⟨⟨hlen3, hrange3, ?_⟩, ?_, ?_, ?_⟩
  · intro z
    obtain ⟨r, ℓ, hch⟩ := hrooted2 z
    rcases em (r = rb2) with hr | hr
    · exact ⟨ra2, ℓ + 1, (hchains3 z r ℓ hch).2 hr⟩
    · exact ⟨r, ℓ, (hchains3 z r ℓ hch).1 hr⟩
  · intro z
    rcases em (z = rb2) with hz | hz
    · have hgz : p3.getD z z = ra2 := by
        rw [hp3, getD_set, if_pos ⟨hz.symm, by omega⟩]
      rw [hgz, hz]
      rcases hswap with ⟨h1, h2⟩ | ⟨h1, h2⟩
      · rw [h1, h2]
        exact Conn.symm hconn_ra_rb
      · rw [h1, h2]
        exact hconn_ra_rb
    · have hgz : p3.getD z z = uf2.parent.getD z z := by
        rw [hp3, getD_set, if_neg (by tauto)]
      rw [hgz]
      exact conn_mono E _ hsub _ _ (hconn2 z)
  · intro eP heP r1 ℓ1 r2 ℓ2 h1 h2
    rcases List.mem_append.mp heP with heP | heP
    · obtain ⟨s1, sℓ1, hs1⟩ := hrooted2 eP.src
      obtain ⟨s2, sℓ2, hs2⟩ := hrooted2 eP.dst
      have heq : s1 = s2 := hcompat2 eP heP s1 sℓ1 s2 sℓ2 hs1 hs2
      rw [hmap eP.src s1 sℓ1 r1 ℓ1 hs1 h1,
        hmap eP.dst s2 sℓ2 r2 ℓ2 hs2 h2, heq]
    · have he : eP = e := by
        cases heP with
        | head => rfl
        | tail _ h' => cases h'
      subst he
      rw [hmap eP.src ra ℓa2 r1 ℓ1 hsrc h1,
        hmap eP.dst rb ℓb2 r2 ℓ2 hdst h2]
      rcases hswap with ⟨h1', h2'⟩ | ⟨h1', h2'⟩
      · have hcond : ¬ ra = rb2 := by
          rw [h2']
          exact hne
        rw [if_neg hcond, if_pos h2'.symm, h1']
      · have hcond : ¬ rb = rb2 := by
          rw [h2']
          exact fun h'' => hne h''.symm
        rw [if_pos h2'.symm, if_neg hcond, h1']
  · rw [hp3]
    exact rootsCount_set_root uf2.parent n ra2 rb2 hrb2_lt hlen2
      hrb2_root hne2

/-- Specification of one `unite` step: the structural, soundness and
completeness invariants are maintained with the edge appended, and the
root count drops by one exactly when a pair is returned. -/
theorem unite_spec (n : ℕ) (uf : UnionFind) (e : EdgeSortKey)
    (E : List EdgeSortKey) (f : ℚ)
    (ha : e.src < n) (hb : e.dst < n)
    (hinv : UFInv n uf) (hconn : UFConn E uf) (hcompat : UFCompat E uf) :
    UFInv n (uf.unite e.src e.dst f).1 ∧
    UFConn (E ++ [e]) (uf.unite e.src e.dst f).1 ∧
    UFCompat (E ++ [e]) (uf.unite e.src e.dst f).1 ∧
    (((uf.unite e.src e.dst f).2 = none ∧
        rootsCount (uf.unite e.src e.dst f).1.parent n =
          rootsCount uf.parent n) ∨
      ((uf.unite e.src e.dst f).2.isSome = true ∧
        rootsCount (uf.unite e.src e.dst f).1.parent n + 1 =
          rootsCount uf.parent n)) := by
  obtain ⟨ra, ℓa, hchain_a⟩ := hinv.2.2 e.src
  obtain ⟨hfa2, hfa_pres⟩ := find_spec n uf e.src ra ℓa hinv ha hchain_a
  have hinv1 : UFInv n (uf.find e.src).1 := UFPres_inv n uf _ hfa_pres hinv
  obtain ⟨rb, ℓb, hchain_b⟩ := hinv1.2.2 e.dst
  obtain ⟨hfb2, hfb_pres⟩ :=
    find_spec n (uf.find e.src).1 e.dst rb ℓb hinv1 hb hchain_b
  have hpres : UFPres uf ((uf.find e.src).1.find e.dst).1 :=
    UFPres_trans _ _ _ hfa_pres hfb_pres
  have hinv2 : UFInv n ((uf.find e.src).1.find e.dst).1 :=
    UFPres_inv n uf _ hpres hinv
  have hconn2 : UFConn E ((uf.find e.src).1.find e.dst).1 :=
    hpres.2.2.2.2.2.1 E hconn
  have hcompat2 : UFCompat E ((uf.find e.src).1.find e.dst).1 :=
    UFPres_compat uf _ E hinv.2.2 hpres hcompat
  obtain ⟨ℓa2, _, hchain_a2⟩ := hpres.2.2.2.2.1 e.src ra ℓa hchain_a
  obtain ⟨ℓb2, _, hchain_b2⟩ := hfb_pres.2.2.2.2.1 e.dst rb ℓb hchain_b
  have hcount2 : rootsCount ((uf.find e.src).1.find e.dst).1.parent n =
      rootsCount uf.parent n :=
    rootsCount_congr _ _ n hpres.2.2.2.1
  have hsub : ∀ eP ∈ E, eP ∈ E ++ [e] := fun eP h =>
    List.mem_append_left _ h
  by_cases hroots : (uf.find e.src).2 = ((uf.find e.src).1.find e.dst).2
  · have hun := unite_none_shape uf e.src e.dst f hroots
    rw [hun]
    have hrarb : ra = rb := by
      rw [← hfa2, ← hfb2]
      exact hroots
    refine ⟨hinv2, fun z => conn_mono E _ hsub _ _ (hconn2 z), ?_,
      Or.inl ⟨rfl, hcount2⟩⟩
    intro eP heP r1 ℓ1 r2 ℓ2 h1 h2
    rcases List.mem_append.mp heP with heP | heP
    · exact hcompat2 eP heP r1 ℓ1 r2 ℓ2 h1 h2
    · have he : eP = e := by
        cases heP with
        | head => rfl
        | tail _ h' => cases h'
      subst he
      have e1 : r1 = ra := (reachesIn_unique _ _ _ _ _ _ h1 hchain_a2).1
      have e2 : r2 = rb := (reachesIn_unique _ _ _ _ _ _ h2 hchain_b2).1
      rw [e1, e2, hrarb]
  · obtain ⟨x, y, hxy, hpar, hsome⟩ :=
      unite_merge_shape uf e.src e.dst f hroots
    have hne : ra ≠ rb := by
      rw [← hfa2, ← hfb2]
      exact hroots
    have hra_lt : ra < n :=
      reachesIn_root_lt _ n e.src ra ℓa2 hinv2.2.1 ha hchain_a2
    have hrb_lt : rb < n :=
      reachesIn_root_lt _ n e.dst rb ℓb2 hinv2.2.1 hb hchain_b2
    have hconn_ra : Conn E e.src ra := by
      have h' := conn_iterP E _ hconn2 e.src ℓa2
      rw [hchain_a2.1] at h'
      exact h'
    have hconn_rb : Conn E e.dst rb := by
      have h' := conn_iterP E _ hconn2 e.dst ℓb2
      rw [hchain_b2.1] at h'
      exact h'
    have hconn_ra_rb : Conn (E ++ [e]) ra rb :=
      Conn.trans (Conn.trans
        (Conn.symm (conn_mono E _ hsub _ _ hconn_ra))
        (Conn.edge (List.mem_append_right _ (List.mem_singleton.mpr rfl))))
        (conn_mono E _ hsub _ _ hconn_rb)
    have hswap : (x = ra ∧ y = rb) ∨ (x = rb ∧ y = ra) := by
      rw [← hfa2, ← hfb2]
      exact hxy
    obtain ⟨hinv3, hconn3, hcompat3, hcount3⟩ :=
      unite_link_core n ((uf.find e.src).1.find e.dst).1 E e ra rb x y
        ℓa2 ℓb2 (((uf.find e.src).1.find e.dst).1.parent.set y x) rfl hswap
        hinv2 hconn2 hcompat2 hra_lt hrb_lt hne hchain_a2.2.1
        hchain_b2.2.1 hconn_ra_rb hchain_a2 hchain_b2
    rw [← hpar] at hinv3 hconn3 hcompat3 hcount3
    refine ⟨⟨hinv3.1, hinv3.2.1, hinv3.2.2⟩, hconn3, hcompat3,
      Or.inr ⟨hsome, by rw [hcount3, hcount2]⟩⟩

/-- Invariant of the H0 union-find loop: processing the edges maintains
the structural, soundness and completeness invariants, each successful
merge removes exactly one root, and at most one pair is recorded per
merge. -/
theorem h0Loop_spec (n : ℕ) (edges : List EdgeSortKey) :
    ∀ (uf : UnionFind) (E : List EdgeSortKey),
    (∀ e ∈ edges, e.src < n ∧ e.dst < n) →
    UFInv n uf → UFConn E uf → UFCompat E uf →
    UFInv n (h0Loop uf edges).1 ∧
    UFConn (E ++ edges) (h0Loop uf edges).1 ∧
    UFCompat (E ++ edges) (h0Loop uf edges).1 ∧
    rootsCount (h0Loop uf edges).1.parent n + (h0Loop uf edges).2.2 =
      rootsCount uf.parent n ∧
    (h0Loop uf edges).2.1.length ≤ (h0Loop uf edges).2.2 := by
  induction edges with
  | nil =>
    intro uf E hend hinv hconn hcompat
    rw [List.append_nil]
    exact ⟨hinv, hconn, hcompat, rfl, Nat.le_refl 0⟩
  | cons e rest ih =>
    intro uf E hend hinv hconn hcompat
    have hend_e := hend e (List.mem_cons_self e rest)
    obtain ⟨hinv', hconn', hcompat', hcount'⟩ :=
      unite_spec n uf e E e.filt hend_e.1 hend_e.2 hinv hconn hcompat
    have hrest := ih (uf.unite e.src e.dst e.filt).1 (E ++ [e])
      (fun eQ hQ => hend eQ (List.mem_cons_of_mem _ hQ))
      hinv' hconn' hcompat'
    have happ : (E ++ [e]) ++ rest = E ++ e :: rest := by
      rw [List.append_assoc]
      rfl
    rw [happ] at hrest
    obtain ⟨hi, hc, hcp, hcount, hlen⟩ := hrest
    rcases hcount' with ⟨hnone, heq⟩ | ⟨hsome, heq⟩
    · simp only [h0Loop, hnone]
      exact ⟨hi, hc, hcp, by omega, hlen⟩
    · obtain ⟨p, hp⟩ := Option.isSome_iff_exists.mp hsome
      simp only [h0Loop, hp]
      rcases em (p.1 ≠ p.2) with hpc | hpc
      · rw [if_pos hpc]
        dsimp only
        refine ⟨hi, hc, hcp, by omega, ?_⟩
        simp only [List.length_cons]
        omega
      · rw [if_neg hpc]
        dsimp only
        exact ⟨hi, hc, hcp, by omega, by omega⟩

/-- In the freshly initialised union-find every vertex is its own
parent. -/
theorem init_parent_getD (n : ℕ) (vf : List ℚ) (z : ℕ) :
    (UnionFind.init n vf).parent.getD z z = z := by
  rcases em (z < n) with hz | hz
  · rw [UnionFind.init, List.getD_eq_getElem?_getD, List.getElem?_range hz]
    rfl
  · rw [UnionFind.init, List.getD_eq_default]
    rw [List.length_range]
    omega

/-- The initial union-find state satisfies all loop invariants and has
`n` roots. -/
theorem init_invariants (n : ℕ) (vf : List ℚ) :
    UFInv n (UnionFind.init n vf) ∧ UFConn [] (UnionFind.init n vf) ∧
    UFCompat [] (UnionFind.init n vf) ∧
    rootsCount (UnionFind.init n vf).parent n = n := by
  have hg := init_parent_getD n vf
  refine ⟨⟨by simp [UnionFind.init], fun z hz => by rw [hg z]; exact hz,
    fun z => ⟨z, 0, rfl, hg z, by omega⟩⟩,
    fun z => by rw [hg z]; exact Conn.refl z,
    fun e he => absurd he (List.not_mem_nil e), ?_⟩
  unfold rootsCount
  rw [List.filter_eq_self.mpr, List.length_range]
  intro x _
  exact decide_eq_true (hg x)

/-- A nonempty union-find state satisfying the structural invariant has
at least one root. -/
theorem rootsCount_pos (n : ℕ) (uf : UnionFind) (hn : 0 < n)
    (hinv : UFInv n uf) : 1 ≤ rootsCount uf.parent n := by
  obtain ⟨hlen, hrange, hrooted⟩ := hinv
  obtain ⟨r, ℓ, hch⟩ := hrooted 0
  have hr : r < n := reachesIn_root_lt uf.parent n 0 r ℓ hrange hn hch
  have hmem : r ∈ (List.range n).filter
      (fun x => decide (isRoot uf.parent x)) :=
    List.mem_filter.mpr ⟨List.mem_range.mpr hr, decide_eq_true hch.2.1⟩
  unfold rootsCount
  exact Nat.succ_le_of_lt (List.length_pos.mpr (List.ne_nil_of_mem hmem))

/-- Under the completeness invariant, connected vertices reach the same
root. -/
theorem conn_same_root (uf : UnionFind) (E : List EdgeSortKey)
    (hrooted : ∀ z, Rooted uf.parent z) (hcompat : UFCompat E uf)
    (u v : ℕ) (h : Conn E u v) :
    ∀ r1 ℓ1 r2 ℓ2, ReachesIn uf.parent u r1 ℓ1 →
      ReachesIn uf.parent v r2 ℓ2 → r1 = r2 := by
  induction h with
  | refl z =>
    intro r1 ℓ1 r2 ℓ2 h1 h2
    exact (reachesIn_unique _ _ _ _ _ _ h1 h2).1
  | symm _ ih =>
    intro r1 ℓ1 r2 ℓ2 h1 h2
    exact (ih r2 ℓ2 r1 ℓ1 h2 h1).symm
  | trans _ _ ih1 ih2 =>
    rename_i a b c _ _
    intro r1 ℓ1 r2 ℓ2 h1 h2
    obtain ⟨rm, ℓm, hm⟩ := hrooted b
    exact (ih1 r1 ℓ1 rm ℓm h1 hm).trans (ih2 rm ℓm r2 ℓ2 hm h2)
  | edge he =>
    intro r1 ℓ1 r2 ℓ2 h1 h2
    exact hcompat _ he r1 ℓ1 r2 ℓ2 h1 h2

/-- C4 (amended): on a successful run of `topo_gpu_persistence_h0` with
in-range edge endpoints, the number of merge events equals `n - c` where
`c` is the number of final union-find roots; the final root partition is
exactly edge connectivity (so `c` is the number of connected components);
the number of recorded pairs is at most the number of merges (merges
whose dying birth equals the death are suppressed from the output), and
in every case at most `n - 1`. -/
theorem C4_h0_pairs_count (vertexFilt : List ℚ) (edges : List EdgeSortKey)
    (n : ℤ) (hn : 0 < n)
    (hend : ∀ e ∈ edges, e.src < n.toNat ∧ e.dst < n.toNat)
    (res : UnionFind × List (ℚ × ℚ) × ℕ)
    (hres : topo_gpu_persistence_h0 vertexFilt edges n = .ok res) :
    res.2.2 + rootsCount res.1.parent n.toNat = n.toNat ∧
    res.2.1.length ≤ res.2.2 ∧
    1 ≤ rootsCount res.1.parent n.toNat ∧
    res.2.1.length ≤ n.toNat - 1 ∧
    (∀ x y, x < n.toNat → y < n.toNat →
      ((res.1.find x).2 = (res.1.find y).2 ↔ Conn edges x y)) := by
  rw [topo_gpu_persistence_h0, if_neg (by omega)] at hres
  injection hres with hres
  obtain ⟨hinv0, hconn0, hcompat0, hcount0⟩ :=
    init_invariants n.toNat vertexFilt
  have hperm := sortLeB_perm (fun a b => edge_compare a b ≤ 0) edges
  have hmemS : ∀ e ∈ sortEdges edges, e ∈ edges := fun e he =>
    hperm.mem_iff.mp he
  have hmemE : ∀ e ∈ edges, e ∈ sortEdges edges := fun e he =>
    hperm.mem_iff.mpr he
  obtain ⟨hinvF, hconnF, hcompatF, hcountF, hlenF⟩ :=
    h0Loop_spec n.toNat (sortEdges edges)
      (UnionFind.init n.toNat vertexFilt) []
      (fun e he => hend e (hmemS e he)) hinv0 hconn0 hcompat0
  rw [List.nil_append] at hconnF hcompatF
  rw [hres] at hinvF hconnF hcompatF hcountF hlenF
  have hpos : 1 ≤ rootsCount res.1.parent n.toNat :=
    rootsCount_pos n.toNat res.1 (by omega) hinvF
  rw [hcount0] at hcountF
  refine ⟨by omega, hlenF, hpos, by omega, ?_⟩
  intro x y hx hy
  obtain ⟨rx, ℓx, hchx⟩ := hinvF.2.2 x
  obtain ⟨ry, ℓy, hchy⟩ := hinvF.2.2 y
  obtain ⟨hfx, _⟩ := find_spec n.toNat res.1 x rx ℓx hinvF hx hchx
  obtain ⟨hfy, _⟩ := find_spec n.toNat res.1 y ry ℓy hinvF hy hchy
  rw [hfx, hfy]
  constructor
  · intro hxy
    have cx : Conn (sortEdges edges) x rx := by
      have h' := conn_iterP _ res.1 hconnF x ℓx
      rw [hchx.1] at h'
      exact h'
    have cy : Conn (sortEdges edges) y ry := by
      have h' := conn_iterP _ res.1 hconnF y ℓy
      rw [hchy.1] at h'
      exact h'
    have hsc : Conn (sortEdges edges) x y :=
      Conn.trans cx (Conn.trans (by rw [hxy]; exact Conn.refl ry)
        (Conn.symm cy))
    exact conn_mono _ edges hmemS x y hsc
  · intro hxy
    have hsc : Conn (sortEdges edges) x y :=
      conn_mono edges _ hmemE x y hxy
    exact conn_same_root res.1 (sortEdges edges) hinvF.2.2 hcompatF
      x y hsc rx ℓx ry ℓy hchx hchy

/-- Witness for C4: two vertices at filtration 0 joined by one edge at
filtration 1 merge once, record one pair and leave one root. -/
theorem C4_h0_pairs_count_witness :
    (0 : ℤ) < 2 ∧
    (∀ e ∈ [EdgeSortKey.mk 1 0 1],
      e.src < (2 : ℤ).toNat ∧ e.dst < (2 : ℤ).toNat) ∧
    topo_gpu_persistence_h0 [0, 0] [⟨1, 0, 1⟩] 2 =
      .ok (⟨[1, 1], [0, 1], [0, 0]⟩, [(0, 1)], 1) ∧
    ((⟨[1, 1], [0, 1], [0, 0]⟩, [(0, 1)], 1) :
        UnionFind × List (ℚ × ℚ) × ℕ).2.2 +
      rootsCount [1, 1] (2 : ℤ).toNat = (2 : ℤ).toNat :=
  ⟨by decide, by decide, by rfl,
    (C4_h0_pairs_count [0, 0] [⟨1, 0, 1⟩] 2 (by decide) (by decide)
      (⟨[1, 1], [0, 1], [0, 0]⟩, [(0, 1)], 1) (by rfl)).1⟩

end TopoStreams
